import Mathlib

/-!
# ascii-art / cmd/unicode: conversion of ASCII line art to Unicode box drawing

A shallow embedding of `src/cmd/unicode/main.go`.

* A Go `rune` (int32) is an `Int`; a Go `int` (row, column) is an `Int`; a byte is a `Nat`.
* `*Region` is mutated in place in Go; here every mutation returns the new `Region`.
* `string(input)`, `[]rune(line)` and `strings.Builder.WriteRune` come from the Go
  runtime and standard library; they are embedded as `splitLines`, `decodeRunes`
  and `encodeRune` below.
* The file access of `processFile` (open, read, print) is left out: `processFile`
  here takes the bytes read from the file and returns the bytes printed.
-/

namespace AsciiArt

/-! ## Region -/

/-- The Go struct `Region`. -/
structure Region where
  maxWidth : Int
  lines : List (List Int)
deriving DecidableEq, Repr

/-- Go `(*Region).Width`. -/
def Region.Width (r : Region) : Int := r.maxWidth

/-- Go `(*Region).Height`. -/
def Region.Height (r : Region) : Int := r.lines.length

/-- Go `(*Region).Get`: the stored rune, or 0 outside the row actually stored. -/
def Region.Get (r : Region) (row col : Int) : Int :=
  if row < 0 ∨ row ≥ r.lines.length then 0
  else if col < 0 ∨ col ≥ (r.lines.getD row.toNat []).length then 0
  else (r.lines.getD row.toNat []).getD col.toNat 0

/-- Go `(*Region).Set`: overwrite in bounds, do nothing out of bounds. -/
def Region.Set (r : Region) (row col : Int) (ch : Int) : Region :=
  if row < 0 ∨ row ≥ r.lines.length then r
  else if col < 0 ∨ col ≥ (r.lines.getD row.toNat []).length then r
  else { r with lines := r.lines.set row.toNat ((r.lines.getD row.toNat []).set col.toNat ch) }

/-! ## Flags, glyph tables, classifier -/

/-- Go `FlagUp = 1 << 0`. -/
def FlagUp : Nat := 1 <<< 0
/-- Go `FlagDown = 1 << 1`. -/
def FlagDown : Nat := 1 <<< 1
/-- Go `FlagLeft = 1 << 2`. -/
def FlagLeft : Nat := 1 <<< 2
/-- Go `FlagRight = 1 << 3`. -/
def FlagRight : Nat := 1 <<< 3

/-- Go `lineDrawing`, entry by entry (43 is '+'). -/
def lineDrawing : List Int :=
  [ 43,      --
    0x2576,  --                  Up
    0x2577,  --             Down
    0x2502,  --             Down Up
    0x2574,  --        Left
    0x2518,  --        Left      Up
    0x2510,  --        Left Down
    0x2524,  --        Left Down Up
    0x2576,  --  Right
    0x2514,  --  Right           Up
    0x250C,  --  Right      Down
    0x251C,  --  Right      Down Up
    0x2500,  --  Right Left
    0x2534,  --  Right Left      Up
    0x252C,  --  Right Left Down
    0x253C ] --  Right Left Down Up

/-- Go `lineDrawingRound`, entry by entry (43 is '+'). -/
def lineDrawingRound : List Int :=
  [ 43,      --
    0x2576,  --                  Up
    0x2577,  --             Down
    0x2502,  --             Down Up
    0x2574,  --        Left
    0x256F,  --        Left      Up
    0x256E,  --        Left Down
    0x2524,  --        Left Down Up
    0x2576,  --  Right
    0x2570,  --  Right           Up
    0x256D,  --  Right      Down
    0x251C,  --  Right      Down Up
    0x2500,  --  Right Left
    0x2534,  --  Right Left      Up
    0x252C,  --  Right Left Down
    0x253C ] --  Right Left Down Up

/-- Go `isLine`: 124 '|', 45 '-', 43 '+', 42 '*', or the block U+2500..U+257F. -/
def isLine (r : Int) : Bool :=
  if r = 124 ∨ r = 45 ∨ r = 43 ∨ r = 42 then true
  else decide (0x2500 ≤ r ∧ r ≤ 0x257F)

/-! ## The conversion pass of `processFile` -/

/-- The variable `index` of `processFile` after its four `if isLine(...)` statements. -/
def neighbourIndex (region : Region) (row col : Int) : Nat :=
  let index := 0
  let index := if isLine (region.Get (row - 1) col) then index ||| FlagUp else index
  let index := if isLine (region.Get (row + 1) col) then index ||| FlagDown else index
  let index := if isLine (region.Get row (col - 1)) then index ||| FlagLeft else index
  let index := if isLine (region.Get row (col + 1)) then index ||| FlagRight else index
  index

/-- The body of the inner loop of `processFile`: the `switch ch` on one cell.
Both table lookups carry the proof that `index` is inside the table. -/
def processCell (region : Region) (row col : Int) : Region :=
  let ch := region.Get row col
  if ch = 124 then region.Set row col 0x2502
  else if ch = 45 then region.Set row col 0x2500
  else if ch = 43 ∨ ch = 42 then
    let index := neighbourIndex region row col
    have inRange : index < 16 := by
      show neighbourIndex region row col < 16
      unfold neighbourIndex
      cases isLine (region.Get (row - 1) col) <;> cases isLine (region.Get (row + 1) col) <;>
        cases isLine (region.Get row (col - 1)) <;> cases isLine (region.Get row (col + 1)) <;>
        decide
    if ch = 43 then
      region.Set row col (lineDrawing.get ⟨index, inRange⟩)
    else
      region.Set row col (lineDrawingRound.get ⟨index, inRange⟩)
  else region

/-- The inner loop `for col := ...; col < region.Width(); col++`, entered at `col`
with `fuel` iterations allowed; the loop condition is tested on the current region. -/
def colLoop (row : Int) : Nat → Int → Region → Region
  | 0, _, region => region
  | fuel + 1, col, region =>
    if col < region.Width then colLoop row fuel (col + 1) (processCell region row col)
    else region

/-- The outer loop `for row := ...; row < region.Height(); row++`, entered at `row`
with `fuel` iterations allowed; each inner loop starts at column 0 and is allowed
`Width` iterations. -/
def rowLoop : Nat → Int → Region → Region
  | 0, _, region => region
  | fuel + 1, row, region =>
    if row < region.Height then
      rowLoop fuel (row + 1) (colLoop row region.Width.toNat 0 region)
    else region

/-- The two nested loops of `processFile` on a region: the conversion pass. -/
def convert (region : Region) : Region :=
  rowLoop region.Height.toNat 0 region

/-! ## Bytes and runes: what the Go runtime does in `NewRegion` and `String` -/

/-- Go `strings.Split(s, "\n")` on the bytes of `s` (10 is the line feed): the pieces
between line feeds, one more piece than there are line feeds. -/
def splitLines : List Nat → List (List Nat)
  | [] => [[]]
  | b :: rest =>
    if b = 10 then [] :: splitLines rest
    else
      match splitLines rest with
      | [] => [[b]]
      | line :: more => (b :: line) :: more

/-- Go `utf8.RuneError`. -/
def RuneError : Int := 0xFFFD

/-- Go runtime `decoderune` at a first byte `b0 >= 0x80` followed by `s`: the rune
and the number of bytes it takes; a malformed sequence is `RuneError` of width 1. -/
def decoderune (b0 : Nat) (s : List Nat) : Int × Nat :=
  if 0xC0 ≤ b0 ∧ b0 < 0xE0 then
    match s with
    | b1 :: _ =>
      if 0x80 ≤ b1 ∧ b1 ≤ 0xBF then
        let r := (b0 &&& 0x1F) <<< 6 ||| (b1 &&& 0x3F)
        if 0x7F < r then ((r : Int), 2) else (RuneError, 1)
      else (RuneError, 1)
    | _ => (RuneError, 1)
  else if 0xE0 ≤ b0 ∧ b0 < 0xF0 then
    match s with
    | b1 :: b2 :: _ =>
      if (0x80 ≤ b1 ∧ b1 ≤ 0xBF) ∧ (0x80 ≤ b2 ∧ b2 ≤ 0xBF) then
        let r := (b0 &&& 0x0F) <<< 12 ||| (b1 &&& 0x3F) <<< 6 ||| (b2 &&& 0x3F)
        if 0x7FF < r ∧ ¬ (0xD800 ≤ r ∧ r ≤ 0xDFFF) then ((r : Int), 3) else (RuneError, 1)
      else (RuneError, 1)
    | _ => (RuneError, 1)
  else if 0xF0 ≤ b0 ∧ b0 < 0xF8 then
    match s with
    | b1 :: b2 :: b3 :: _ =>
      if (0x80 ≤ b1 ∧ b1 ≤ 0xBF) ∧ (0x80 ≤ b2 ∧ b2 ≤ 0xBF) ∧ (0x80 ≤ b3 ∧ b3 ≤ 0xBF) then
        let r := (b0 &&& 0x07) <<< 18 ||| (b1 &&& 0x3F) <<< 12 ||| (b2 &&& 0x3F) <<< 6
          ||| (b3 &&& 0x3F)
        if 0xFFFF < r ∧ r ≤ 0x10FFFF then ((r : Int), 4) else (RuneError, 1)
      else (RuneError, 1)
    | _ => (RuneError, 1)
  else (RuneError, 1)

/-- Go `[]rune(line)`, a `for _, r := range line` collecting `r`: `skip` bytes of an
already decoded rune are passed over, then the next rune is decoded (a byte below
0x80 is its own rune). -/
def decodeRunesFrom : Nat → List Nat → List Int
  | _, [] => []
  | skip + 1, _ :: rest => decodeRunesFrom skip rest
  | 0, b0 :: rest =>
    if b0 < 0x80 then (b0 : Int) :: decodeRunesFrom 0 rest
    else (decoderune b0 rest).1 :: decodeRunesFrom ((decoderune b0 rest).2 - 1) rest

/-- Go `[]rune(line)`. -/
def decodeRunes (line : List Nat) : List Int := decodeRunesFrom 0 line

/-- The three bytes of `utf8.AppendRune` for `i` in 0x800..0xFFFF. -/
def encode3 (i : Nat) : List Nat :=
  [0xE0 ||| (i >>> 12) % 256, 0x80 ||| ((i >>> 6) % 256 &&& 0x3F), 0x80 ||| (i % 256 &&& 0x3F)]

/-- Go `strings.Builder.WriteRune(r)`, that is `utf8.AppendRune`: the bytes written
for the rune `r`, where `i` is `uint32(r)`; a rune that is no Unicode scalar value
is written as `RuneError`. -/
def encodeRune (r : Int) : List Nat :=
  let i := (r % 4294967296).toNat
  if i ≤ 0x7F then [i % 256]
  else if i ≤ 0x7FF then [0xC0 ||| (i >>> 6) % 256, 0x80 ||| (i % 256 &&& 0x3F)]
  else if i > 0x10FFFF ∨ (0xD800 ≤ i ∧ i ≤ 0xDFFF) then encode3 0xFFFD
  else if i ≤ 0xFFFF then encode3 i
  else [0xF0 ||| (i >>> 18) % 256, 0x80 ||| ((i >>> 12) % 256 &&& 0x3F),
        0x80 ||| ((i >>> 6) % 256 &&& 0x3F), 0x80 ||| (i % 256 &&& 0x3F)]

/-! ## Construction, serialization, the whole filter -/

/-- The loop of Go `NewRegion` over the split lines, with its variables `lines` and
`width`. -/
def newRegionLoop : List (List Nat) → List (List Int) → Int → Region
  | [], lines, width => { maxWidth := width, lines := lines }
  | line :: rest, lines, width =>
    let runes := decodeRunes line
    let width := if (runes.length : Int) > width then (runes.length : Int) else width
    newRegionLoop rest (lines ++ [runes]) width

/-- Go `NewRegion`. -/
def NewRegion (input : List Nat) : Region :=
  newRegionLoop (splitLines input) [] 0

/-- The loop of Go `(*Region).String` from row number `row` on, appending to the
bytes `b` of the builder. -/
def stringLoop : Nat → List (List Int) → List Nat → List Nat
  | _, [], b => b
  | row, line :: rest, b =>
    let b := if row > 0 then b ++ encodeRune 10 else b
    let b := line.foldl (fun acc r => acc ++ encodeRune r) b
    stringLoop (row + 1) rest b

/-- Go `(*Region).String`: the bytes of the string built. -/
def Region.String (r : Region) : List Nat := stringLoop 0 r.lines []

/-- Go `processFile` from the `data` read to the bytes printed: build the region,
run the conversion pass, serialize. -/
def processFile (data : List Nat) : List Nat :=
  (convert (NewRegion data)).String

/-! ## Definitions used to state and prove the properties -/

/-- The cell (row, col) is stored: the row exists and is longer than `col`. -/
def Region.InBounds (r : Region) (row col : Int) : Prop :=
  0 ≤ row ∧ row < r.lines.length ∧ 0 ≤ col ∧ col < (r.lines.getD row.toNat []).length

instance (r : Region) (row col : Int) : Decidable (r.InBounds row col) := by
  unfold Region.InBounds
  infer_instance

/-- The rune that the `switch ch` of `processFile` stores in a cell holding `ch`
whose neighbour index is `index` (`ch` itself where the switch has no case). -/
def convChar (ch : Int) (index : Nat) : Int :=
  if ch = 124 then 0x2502
  else if ch = 45 then 0x2500
  else if ch = 43 then lineDrawing.getD index 0
  else if ch = 42 then lineDrawingRound.getD index 0
  else ch

/-- The conversion of the cell (row, col) computed from the region `g` alone. -/
def cellResult (g : Region) (row col : Int) : Int :=
  convChar (g.Get row col) (neighbourIndex g row col)

/-- The cells already visited when the pass stands at (row, col) in a region of
width `w`. -/
def Visited (w row col i j : Int) : Prop :=
  0 ≤ j ∧ j < w ∧ (i < row ∨ (i = row ∧ j < col))

instance (w row col i j : Int) : Decidable (Visited w row col i j) := by
  unfold Visited
  infer_instance

/-- The rows of the region all fit in its width, as `NewRegion` builds it. -/
def Region.RowsFit (r : Region) : Prop :=
  ∀ line ∈ r.lines, (line.length : Int) ≤ r.maxWidth

instance (r : Region) : Decidable r.RowsFit := by
  unfold Region.RowsFit
  infer_instance

/-- Same width, same number of rows, same length row by row. -/
def SameShape (a b : Region) : Prop :=
  a.maxWidth = b.maxWidth ∧ a.lines.map List.length = b.lines.map List.length

/-- The state of the pass over `g` when it stands at (row, col) with current region
`cur`: the shape is that of `g`, visited cells hold their conversion computed from
`g`, the other cells still hold what `g` holds. -/
def PassInv (g cur : Region) (row col : Int) : Prop :=
  SameShape cur g ∧
  ∀ i j, cur.Get i j = if Visited g.maxWidth row col i j then cellResult g i j else g.Get i j

/-- The bytes of a string literal (its UTF-8 encoding), as a Go `[]byte`. -/
def bytesOf (s : String) : List Nat := s.toUTF8.data.toList.map (fun b => b.toNat)

/-- The Unicode box-drawing glyph whose arms are exactly the directions of the mask
(bit0 = Up, bit1 = Down, bit2 = Left, bit3 = Right), as the specification lists them;
mask 0 is the plain '+'. -/
def referenceGlyph : List Int :=
  [ 43,      -- no arm
    0x2575,  -- Up:                 BOX DRAWINGS LIGHT UP
    0x2577,  -- Down:               BOX DRAWINGS LIGHT DOWN
    0x2502,  -- Up Down:            BOX DRAWINGS LIGHT VERTICAL
    0x2574,  -- Left:               BOX DRAWINGS LIGHT LEFT
    0x2518,  -- Left Up:            BOX DRAWINGS LIGHT UP AND LEFT
    0x2510,  -- Left Down:          BOX DRAWINGS LIGHT DOWN AND LEFT
    0x2524,  -- Left Down Up:       BOX DRAWINGS LIGHT VERTICAL AND LEFT
    0x2576,  -- Right:              BOX DRAWINGS LIGHT RIGHT
    0x2514,  -- Right Up:           BOX DRAWINGS LIGHT UP AND RIGHT
    0x250C,  -- Right Down:         BOX DRAWINGS LIGHT DOWN AND RIGHT
    0x251C,  -- Right Down Up:      BOX DRAWINGS LIGHT VERTICAL AND RIGHT
    0x2500,  -- Right Left:         BOX DRAWINGS LIGHT HORIZONTAL
    0x2534,  -- Right Left Up:      BOX DRAWINGS LIGHT UP AND HORIZONTAL
    0x252C,  -- Right Left Down:    BOX DRAWINGS LIGHT DOWN AND HORIZONTAL
    0x253C ] -- Right Left Down Up: BOX DRAWINGS LIGHT VERTICAL AND HORIZONTAL

/-- A Unicode scalar value: a code point that is not a surrogate. -/
def ValidRune (r : Int) : Prop := (0 ≤ r ∧ r < 0xD800) ∨ (0xDFFF < r ∧ r ≤ 0x10FFFF)

instance (r : Int) : Decidable (ValidRune r) := by
  unfold ValidRune
  infer_instance

/-- The UTF-8 encoding of a text given by its code points (Go `string(runes)`). -/
def utf8 (text : List Int) : List Nat := text.flatMap encodeRune

/-- The lines of a text given by its code points: the runs between line feeds. -/
def splitText : List Int → List (List Int)
  | [] => [[]]
  | r :: rest =>
    if r = 10 then [] :: splitText rest
    else
      match splitText rest with
      | [] => [[r]]
      | line :: more => (r :: line) :: more

/-- The greatest row length of a list of rows, 0 when there is none or all are empty. -/
def maxRowLen : List (List Int) → Int
  | [] => 0
  | row :: rest => max (row.length : Int) (maxRowLen rest)

/-- The cells on which the inner loop of `processFile` runs its body, in order: the
loop `colLoop` with the region left out of the result. -/
def colVisits (row : Int) : Nat → Int → Region → List (Int × Int)
  | 0, _, _ => []
  | fuel + 1, col, region =>
    if col < region.Width then
      (row, col) :: colVisits row fuel (col + 1) (processCell region row col)
    else []

/-- The cells on which the two loops of `processFile` run the body, in order: the
loop `rowLoop` with the region left out of the result. -/
def rowVisits : Nat → Int → Region → List (Int × Int)
  | 0, _, _ => []
  | fuel + 1, row, region =>
    if row < region.Height then
      colVisits row region.Width.toNat 0 region ++
        rowVisits fuel (row + 1) (colLoop row region.Width.toNat 0 region)
    else []

/-- The cells visited by the conversion pass, in the order of the visits. -/
def visits (region : Region) : List (Int × Int) :=
  rowVisits region.Height.toNat 0 region

/-- The body of the loops of `processFile` run on the cells of `order`, one after the
other, whatever the order. -/
def runOrder (g : Region) (order : List (Int × Int)) : Region :=
  order.foldl (fun region p => processCell region p.1 p.2) g

/-- The cells of a region column by column: column 0 from the first row to the last,
then column 1, up to the width. -/
def columnMajor (g : Region) : List (Int × Int) :=
  (List.range g.Width.toNat).flatMap
    (fun (c : Nat) => (List.range g.Height.toNat).map (fun (r : Nat) => ((r : Int), (c : Int))))

/-- The cells of the rectangle of `h` rows and `w` columns row by row: row 0 from
column 0 to column `w - 1`, then row 1, up to row `h - 1`. -/
def rowMajor (h w : Nat) : List (Int × Int) :=
  (List.range h).flatMap
    (fun (r : Nat) => (List.range w).map (fun (c : Nat) => ((r : Int), (c : Int))))

/-- The neighbour bitmask of the specification: bit0 = Up, bit1 = Down, bit2 = Left,
bit3 = Right, a bit being set when the neighbour of `g` in that direction is a
connector. -/
def specMask (g : Region) (row col : Int) : Nat :=
  (if isLine (g.Get (row - 1) col) then 1 else 0) +
  (if isLine (g.Get (row + 1) col) then 2 else 0) +
  (if isLine (g.Get row (col - 1)) then 4 else 0) +
  (if isLine (g.Get row (col + 1)) then 8 else 0)

/-- The conversion of one cell as the specification words it, from the unmodified
grid `g`: '|' to U+2502, '-' to U+2500, '+' to the square table entry and '*' to the
rounded table entry of the mask of the four neighbours in `g`, anything else as it is. -/
def specCell (g : Region) (row col : Int) : Int :=
  let ch := g.Get row col
  if ch = 124 then 0x2502
  else if ch = 45 then 0x2500
  else if ch = 43 then lineDrawing.getD (specMask g row col) 0
  else if ch = 42 then lineDrawingRound.getD (specMask g row col) 0
  else ch

/-- The grid of the specification's cell-by-cell conversion: every stored cell of `g`
replaced by its `specCell`, all computed from `g` itself. -/
def specConvert (g : Region) : Region :=
  { maxWidth := g.maxWidth,
    lines := g.lines.mapIdx (fun i row => row.mapIdx (fun j _ => specCell g i j)) }

/-- The cells of `D` hold their conversion computed from `g`, the others hold what `g`
holds, and the shape is that of `g`. -/
def CellInv (g cur : Region) (D : Int → Int → Prop) : Prop :=
  SameShape cur g ∧
  ∀ i j, (D i j → cur.Get i j = cellResult g i j) ∧ (¬ D i j → cur.Get i j = g.Get i j)

/-! ## Reading and writing cells -/

theorem Set_maxWidth (r : Region) (row col ch : Int) :
    (r.Set row col ch).maxWidth = r.maxWidth := by
  unfold Region.Set
  split_ifs <;> rfl

theorem Set_lengths (r : Region) (row col ch : Int) :
    (r.Set row col ch).lines.map List.length = r.lines.map List.length := by
  unfold Region.Set
  split_ifs with h1 h2
  · rfl
  · rfl
  · simp only [not_or, not_lt, ge_iff_le, not_le] at h1
    apply List.ext_getElem
    · simp
    · intro n hn1 hn2
      simp only [List.getElem_map, List.getElem_set]
      split_ifs with h3
      · subst h3
        simp only [List.length_set]
        rw [List.getD_eq_getElem _ _ (by simpa using hn2)]
      · rfl

theorem Set_length (r : Region) (row col ch : Int) :
    (r.Set row col ch).lines.length = r.lines.length := by
  have h := congrArg List.length (Set_lengths r row col ch)
  simpa using h

theorem lengths_getD {l1 l2 : List (List Int)} (h : l1.map List.length = l2.map List.length)
    (n : Nat) : (l1.getD n []).length = (l2.getD n []).length := by
  have h2 := congrArg (fun l => l.getD n 0) h
  simp only [List.getD_eq_getElem?_getD, List.getElem?_map] at h2 ⊢
  cases h3 : l1[n]? <;> cases h4 : l2[n]? <;> simp_all

theorem Get_of_not_InBounds (r : Region) (row col : Int) (h : ¬ r.InBounds row col) :
    r.Get row col = 0 := by
  unfold Region.Get
  unfold Region.InBounds at h
  split_ifs with h1 h2
  · rfl
  · rfl
  · exfalso
    apply h
    omega

theorem Set_of_not_InBounds (r : Region) (row col ch : Int) (h : ¬ r.InBounds row col) :
    r.Set row col ch = r := by
  unfold Region.Set
  unfold Region.InBounds at h
  split_ifs with h1 h2
  · rfl
  · rfl
  · exfalso
    apply h
    omega

theorem Get_Set (r : Region) (row col ch i j : Int) :
    (r.Set row col ch).Get i j =
      if i = row ∧ j = col ∧ r.InBounds row col then ch else r.Get i j := by
  by_cases hb : r.InBounds row col
  swap
  · rw [Set_of_not_InBounds r row col ch hb]
    simp [hb]
  · have hlen := Set_length r row col ch
    have hrow := fun n => lengths_getD (Set_lengths r row col ch) n
    obtain ⟨hr0, hr1, hc0, hc1⟩ := hb
    have hset : (r.Set row col ch).lines =
        r.lines.set row.toNat ((r.lines.getD row.toNat []).set col.toNat ch) := by
      unfold Region.Set
      rw [if_neg (by omega), if_neg (by omega)]
    unfold Region.Get
    rw [hlen, hrow]
    simp only [Region.InBounds, hr0, hr1, hc0, hc1, and_self, and_true]
    by_cases hi : i < 0 ∨ i ≥ r.lines.length
    · rw [if_pos hi, if_pos hi]
      rw [if_neg (by omega)]
    · rw [if_neg hi, if_neg hi]
      by_cases hj : j < 0 ∨ j ≥ (r.lines.getD i.toNat []).length
      · rw [if_pos hj, if_pos hj]
        split_ifs with h5
        · exfalso
          obtain ⟨h5a, h5b⟩ := h5
          subst h5a h5b
          omega
        · rfl
      · rw [if_neg hj, if_neg hj, hset]
        have hiN : i.toNat < r.lines.length := by omega
        have hrN : row.toNat < r.lines.length := by omega
        have hjN : j.toNat < (r.lines.getD i.toNat []).length := by omega
        simp only [List.getD_eq_getElem?_getD, List.getElem?_set] at hjN ⊢
        by_cases hir : i = row
        · subst hir
          simp only [if_true, hiN, Option.getD_some, true_and]
          by_cases hjc : j = col
          · subst hjc
            simp [hjN]
          · have : ¬ col.toNat = j.toNat := by omega
            simp [hjc, this]
        · have : ¬ row.toNat = i.toNat := by omega
          simp [hir, this]

theorem neighbourIndex_lt (region : Region) (row col : Int) :
    neighbourIndex region row col < 16 := by
  unfold neighbourIndex
  cases isLine (region.Get (row - 1) col) <;> cases isLine (region.Get (row + 1) col) <;>
    cases isLine (region.Get row (col - 1)) <;> cases isLine (region.Get row (col + 1)) <;>
    decide

theorem neighbourIndex_congr (r1 r2 : Region) (row col : Int)
    (h : ∀ i j, isLine (r1.Get i j) = isLine (r2.Get i j)) :
    neighbourIndex r1 row col = neighbourIndex r2 row col := by
  unfold neighbourIndex
  simp only [h]

theorem convChar_zero (index : Nat) : convChar 0 index = 0 := by
  simp [convChar]

theorem isLine_convChar (ch : Int) (index : Nat) (h : index < 16) :
    isLine (convChar ch index) = isLine ch := by
  unfold convChar
  split_ifs with h1 h2 h3 h4
  · subst h1; decide
  · subst h2; decide
  · subst h3
    interval_cases index <;> decide
  · subst h4
    interval_cases index <;> decide
  · rfl

theorem convChar_idem (ch : Int) (index : Nat) (h : index < 16) :
    convChar (convChar ch index) index = convChar ch index := by
  by_cases h1 : ch = 124
  · subst h1; interval_cases index <;> decide
  by_cases h2 : ch = 45
  · subst h2; interval_cases index <;> decide
  by_cases h3 : ch = 43
  · subst h3; interval_cases index <;> decide
  by_cases h4 : ch = 42
  · subst h4; interval_cases index <;> decide
  simp [convChar, h1, h2, h3, h4]

theorem get_eq_getD (l : List Int) (n : Nat) (h : n < l.length) :
    l.get ⟨n, h⟩ = l.getD n 0 := by
  rw [List.getD_eq_getElem _ _ h]
  rfl

theorem Get_processCell (r : Region) (row col i j : Int) :
    (processCell r row col).Get i j =
      if i = row ∧ j = col then cellResult r row col else r.Get i j := by
  by_cases hb : r.InBounds row col
  · unfold processCell cellResult convChar
    simp only []
    have hG : ∀ ch, (r.Set row col ch).Get i j =
        if i = row ∧ j = col then ch else r.Get i j := by
      intro ch
      rw [Get_Set]
      simp [hb]
    simp only [get_eq_getD]
    by_cases h1 : r.Get row col = 124
    · simp only [h1, if_true]
      exact hG _
    by_cases h2 : r.Get row col = 45
    · simp only [h2, if_true]
      exact hG _
    by_cases h3 : r.Get row col = 43
    · simp only [h3, if_true, true_or]
      exact hG _
    by_cases h4 : r.Get row col = 42
    · simp only [h4, if_true, or_true]
      exact hG _
    simp only [h1, h2, h3, h4, if_false, or_self]
    split_ifs with h5
    · rw [h5.1, h5.2]
    · rfl
  · have h0 := Get_of_not_InBounds r row col hb
    have : processCell r row col = r := by
      unfold processCell
      simp [h0]
    rw [this, cellResult, h0, convChar_zero]
    split_ifs with h
    · rw [h.1, h.2, h0]
    · rfl

/-! ## The pass keeps the shape -/

theorem SameShape.refl (a : Region) : SameShape a a := ⟨rfl, rfl⟩

theorem SameShape.trans {a b c : Region} (h1 : SameShape a b) (h2 : SameShape b c) :
    SameShape a c := ⟨h1.1.trans h2.1, h1.2.trans h2.2⟩

theorem SameShape.height {a b : Region} (h : SameShape a b) : a.Height = b.Height := by
  have h2 := congrArg List.length h.2
  simp only [List.length_map] at h2
  simp [Region.Height, h2]

theorem Set_shape (r : Region) (row col ch : Int) : SameShape (r.Set row col ch) r :=
  ⟨Set_maxWidth r row col ch, Set_lengths r row col ch⟩

theorem processCell_shape (r : Region) (row col : Int) : SameShape (processCell r row col) r := by
  unfold processCell
  simp only []
  split_ifs
  all_goals first | exact Set_shape _ _ _ _ | exact SameShape.refl _

theorem colLoop_shape (row : Int) (fuel : Nat) (col : Int) (r : Region) :
    SameShape (colLoop row fuel col r) r := by
  induction fuel generalizing col r with
  | zero => exact SameShape.refl _
  | succ n ih =>
    unfold colLoop
    split_ifs
    · exact (ih _ _).trans (processCell_shape r row col)
    · exact SameShape.refl _

theorem rowLoop_shape (fuel : Nat) (row : Int) (r : Region) :
    SameShape (rowLoop fuel row r) r := by
  induction fuel generalizing row r with
  | zero => exact SameShape.refl _
  | succ n ih =>
    unfold rowLoop
    split_ifs
    · exact (ih _ _).trans (colLoop_shape _ _ _ _)
    · exact SameShape.refl _

theorem convert_shape (g : Region) : SameShape (convert g) g :=
  rowLoop_shape _ _ _

theorem SameShape.rowsFit {a b : Region} (h : SameShape a b) (hb : b.RowsFit) : a.RowsFit := by
  intro line hline
  obtain ⟨n, hn, rfl⟩ := List.getElem_of_mem hline
  have hn2 : n < b.lines.length := by
    have := congrArg List.length h.2
    simp only [List.length_map] at this
    omega
  have h1 := lengths_getD h.2 n
  rw [List.getD_eq_getElem _ _ hn, List.getD_eq_getElem _ _ hn2] at h1
  rw [h1, h.1]
  exact hb _ (List.getElem_mem hn2)

/-- The pass keeps the rows inside the width. -/
theorem convert_RowsFit (g : Region) (h : g.RowsFit) : (convert g).RowsFit :=
  (convert_shape g).rowsFit h

/-! ## The fuel of the loops is enough -/

theorem colLoop_more_fuel (row : Int) (fuel extra : Nat) (col : Int) (r : Region)
    (h : r.Width - col ≤ fuel) :
    colLoop row (fuel + extra) col r = colLoop row fuel col r := by
  induction fuel generalizing col r with
  | zero =>
    cases extra with
    | zero => rfl
    | succ k =>
      have hge : ¬ col < r.Width := by
        have : r.Width - col ≤ 0 := by exact_mod_cast h
        omega
      rw [Nat.zero_add]
      unfold colLoop
      rw [if_neg hge]
  | succ n ih =>
    rw [show n + 1 + extra = (n + extra) + 1 by omega, colLoop, colLoop]
    split_ifs with hlt
    · apply ih
      have : (processCell r row col).Width = r.Width := (processCell_shape r row col).1
      omega
    · rfl

theorem rowLoop_more_fuel (fuel extra : Nat) (row : Int) (r : Region)
    (h : r.Height - row ≤ fuel) :
    rowLoop (fuel + extra) row r = rowLoop fuel row r := by
  induction fuel generalizing row r with
  | zero =>
    cases extra with
    | zero => rfl
    | succ k =>
      have hge : ¬ row < r.Height := by
        have : r.Height - row ≤ 0 := by exact_mod_cast h
        omega
      rw [Nat.zero_add]
      unfold rowLoop
      rw [if_neg hge]
  | succ n ih =>
    rw [show n + 1 + extra = (n + extra) + 1 by omega, rowLoop, rowLoop]
    split_ifs with hlt
    · apply ih
      have : (colLoop row r.Width.toNat 0 r).Height = r.Height :=
        (colLoop_shape row _ 0 r).height
      omega
    · rfl

/-! ## The pass cell by cell -/

theorem cellResult_of_not_InBounds (g : Region) (i j : Int) (h : ¬ g.InBounds i j) :
    cellResult g i j = 0 := by
  rw [cellResult, Get_of_not_InBounds g i j h, convChar_zero]

theorem isLine_cellResult (g : Region) (i j : Int) :
    isLine (cellResult g i j) = isLine (g.Get i j) :=
  isLine_convChar _ _ (neighbourIndex_lt g i j)

theorem PassInv.isLine_eq {g cur : Region} {row col : Int} (h : PassInv g cur row col)
    (i j : Int) : isLine (cur.Get i j) = isLine (g.Get i j) := by
  rw [h.2 i j]
  split_ifs
  · exact isLine_cellResult g i j
  · rfl

theorem PassInv.step {g cur : Region} {row col : Int} (h : PassInv g cur row col)
    (hc0 : 0 ≤ col) (hcw : col < g.maxWidth) :
    PassInv g (processCell cur row col) row (col + 1) := by
  refine ⟨(processCell_shape cur row col).trans h.1, ?_⟩
  intro i j
  rw [Get_processCell]
  have hidx : neighbourIndex cur row col = neighbourIndex g row col :=
    neighbourIndex_congr cur g row col h.isLine_eq
  have hch : cur.Get row col = g.Get row col := by
    rw [h.2 row col, if_neg]
    unfold Visited
    omega
  by_cases hij : i = row ∧ j = col
  · obtain ⟨hi, hj⟩ := hij
    subst hi hj
    rw [if_pos ⟨rfl, rfl⟩, if_pos]
    · rw [cellResult, cellResult, hidx, hch]
    · unfold Visited
      omega
  · rw [if_neg hij, h.2 i j]
    have : Visited g.maxWidth row (col + 1) i j ↔ Visited g.maxWidth row col i j := by
      unfold Visited
      omega
    simp only [this]

theorem PassInv.next_row {g cur : Region} {row col : Int} (h : PassInv g cur row col)
    (hcw : g.maxWidth ≤ col) : PassInv g cur (row + 1) 0 := by
  refine ⟨h.1, ?_⟩
  intro i j
  rw [h.2 i j]
  have : Visited g.maxWidth (row + 1) 0 i j ↔ Visited g.maxWidth row col i j := by
    unfold Visited
    omega
  simp only [this]

theorem PassInv.colLoop {g : Region} {row : Int} (fuel : Nat) (col : Int) (cur : Region)
    (h : PassInv g cur row col) (hc0 : 0 ≤ col) (hfuel : g.maxWidth - col ≤ fuel) :
    PassInv g (colLoop row fuel col cur) (row + 1) 0 := by
  induction fuel generalizing col cur with
  | zero =>
    unfold AsciiArt.colLoop
    exact h.next_row (by omega)
  | succ n ih =>
    unfold AsciiArt.colLoop
    have hw : cur.Width = g.maxWidth := h.1.1
    rw [hw]
    split_ifs with hlt
    · exact ih (col + 1) _ (h.step hc0 hlt) (by omega) (by omega)
    · exact h.next_row (by omega)

theorem PassInv.finish {g cur : Region} {row : Int} (h : PassInv g cur row 0)
    (hrow : g.Height ≤ row) (i j : Int) :
    cur.Get i j = if j < g.maxWidth then cellResult g i j else g.Get i j := by
  rw [h.2 i j]
  by_cases hb : g.InBounds i j
  · have : Visited g.maxWidth row 0 i j ↔ j < g.maxWidth := by
      unfold Visited
      unfold Region.InBounds at hb
      unfold Region.Height at hrow
      omega
    simp only [this]
  · rw [cellResult_of_not_InBounds g i j hb, Get_of_not_InBounds g i j hb]
    simp

theorem PassInv.rowLoop {g : Region} (fuel : Nat) (row : Int) (cur : Region)
    (h : PassInv g cur row 0) (hr0 : 0 ≤ row) (hfuel : g.Height - row ≤ fuel) (i j : Int) :
    (rowLoop fuel row cur).Get i j =
      if j < g.maxWidth then cellResult g i j else g.Get i j := by
  induction fuel generalizing row cur with
  | zero =>
    unfold AsciiArt.rowLoop
    exact h.finish (by omega) i j
  | succ n ih =>
    unfold AsciiArt.rowLoop
    have hh : cur.Height = g.Height := h.1.height
    have hw : cur.Width = g.maxWidth := h.1.1
    rw [hh, hw]
    by_cases hlt : row < g.Height
    · rw [if_pos hlt]
      refine ih (row + 1) _ (PassInv.colLoop _ 0 cur h (le_refl 0) ?_) (by omega) (by omega)
      omega
    · rw [if_neg hlt]
      exact h.finish (by omega) i j

theorem PassInv.start (g : Region) : PassInv g g 0 0 := by
  refine ⟨SameShape.refl g, ?_⟩
  intro i j
  by_cases hb : g.InBounds i j
  · rw [if_neg]
    unfold Visited
    unfold Region.InBounds at hb
    omega
  · rw [cellResult_of_not_InBounds g i j hb, Get_of_not_InBounds g i j hb]
    simp

/-- The pass computes every cell left of the width from the input region alone. -/
theorem Get_convert (g : Region) (i j : Int) :
    (convert g).Get i j = if j < g.maxWidth then cellResult g i j else g.Get i j := by
  unfold convert
  exact PassInv.rowLoop _ 0 g (PassInv.start g) (le_refl 0) (by omega) i j

/-! ## Regions are determined by their shape and their cells -/

theorem Get_eq_getElem (r : Region) (n m : Nat) (hn : n < r.lines.length)
    (hm : m < (r.lines[n]).length) : r.Get n m = (r.lines[n])[m] := by
  unfold Region.Get
  have e : r.lines.getD (n : Int).toNat [] = r.lines[n] := by
    rw [Int.toNat_ofNat, List.getD_eq_getElem _ _ hn]
  rw [e, if_neg (by omega), if_neg (by omega), Int.toNat_ofNat, List.getD_eq_getElem _ _ hm]

theorem Region.eq_of_Get {a b : Region} (hs : SameShape a b)
    (hg : ∀ i j, a.Get i j = b.Get i j) : a = b := by
  obtain ⟨hw, hl⟩ := hs
  have hlen : a.lines.length = b.lines.length := by
    have := congrArg List.length hl
    simpa using this
  have hlines : a.lines = b.lines := by
    apply List.ext_getElem hlen
    intro n h1 h2
    have hrow : (a.lines[n]).length = (b.lines[n]).length := by
      have := lengths_getD hl n
      rwa [List.getD_eq_getElem _ _ h1, List.getD_eq_getElem _ _ h2] at this
    apply List.ext_getElem hrow
    intro m h3 h4
    rw [← Get_eq_getElem a n m h1 h3, ← Get_eq_getElem b n m h2 h4]
    exact hg n m
  cases a
  cases b
  simp_all

theorem InBounds_of_Get_ne_zero (g : Region) (row col : Int) (h : g.Get row col ≠ 0) :
    g.InBounds row col := by
  by_contra hb
  exact h (Get_of_not_InBounds g row col hb)

theorem Region.RowsFit.lt_width {g : Region} (hfit : g.RowsFit) {row col : Int}
    (hb : g.InBounds row col) : col < g.maxWidth := by
  obtain ⟨h0, h1, h2, h3⟩ := hb
  have hn : row.toNat < g.lines.length := by omega
  have hmem : g.lines[row.toNat] ∈ g.lines := List.getElem_mem hn
  have := hfit _ hmem
  rw [List.getD_eq_getElem _ _ hn] at h3
  omega

theorem Get_convert_of_fit (g : Region) (hfit : g.RowsFit) (i j : Int) :
    (convert g).Get i j = cellResult g i j := by
  rw [Get_convert]
  by_cases hb : g.InBounds i j
  · rw [if_pos (hfit.lt_width hb)]
  · rw [cellResult_of_not_InBounds g i j hb, Get_of_not_InBounds g i j hb]
    simp

theorem isLine_Get_convert (g : Region) (i j : Int) :
    isLine ((convert g).Get i j) = isLine (g.Get i j) := by
  rw [Get_convert]
  split_ifs
  · exact isLine_cellResult g i j
  · rfl

theorem neighbourIndex_eq_zero (g : Region) (row col : Int)
    (hu : isLine (g.Get (row - 1) col) = false) (hd : isLine (g.Get (row + 1) col) = false)
    (hl : isLine (g.Get row (col - 1)) = false) (hr : isLine (g.Get row (col + 1)) = false) :
    neighbourIndex g row col = 0 := by
  simp [neighbourIndex, hu, hd, hl, hr]

theorem neighbourIndex_eq_fifteen (g : Region) (row col : Int)
    (hu : isLine (g.Get (row - 1) col) = true) (hd : isLine (g.Get (row + 1) col) = true)
    (hl : isLine (g.Get row (col - 1)) = true) (hr : isLine (g.Get row (col + 1)) = true) :
    neighbourIndex g row col = 15 := by
  simp only [neighbourIndex, hu, hd, hl, hr, if_true]
  decide

/-! ## UTF-8: decoding undoes encoding -/

theorem or_shift (a c k : Nat) (h : c < 2 ^ k) : a <<< k ||| c = a * 2 ^ k + c := by
  rw [Nat.shiftLeft_eq, Nat.mul_comm, ← Nat.mul_add_lt_is_or h]

theorem or_shift2 (a c : Nat) (hc : c < 64) : a <<< 6 ||| c = a * 64 + c :=
  or_shift a c 6 (by omega)

theorem or_shift3 (a b c : Nat) (hb : b < 64) (hc : c < 64) :
    a <<< 12 ||| b <<< 6 ||| c = a * 4096 + b * 64 + c := by
  have h1 : a <<< 12 ||| b <<< 6 = a * 4096 + b * 64 := by
    rw [Nat.shiftLeft_eq b 6]
    exact or_shift a (b * 2 ^ 6) 12 (by omega)
  have h2 : a * 4096 + b * 64 = (a * 64 + b) <<< 6 := by
    rw [Nat.shiftLeft_eq]
    omega
  rw [h1, h2, or_shift _ c 6 (by omega)]
  omega

theorem or_shift4 (a b c d : Nat) (hb : b < 64) (hc : c < 64) (hd : d < 64) :
    a <<< 18 ||| b <<< 12 ||| c <<< 6 ||| d = a * 262144 + b * 4096 + c * 64 + d := by
  have h1 : a <<< 18 ||| b <<< 12 = a * 262144 + b * 4096 := by
    rw [Nat.shiftLeft_eq b 12]
    exact or_shift a (b * 2 ^ 12) 18 (by omega)
  have h2 : a * 262144 + b * 4096 = (a * 64 + b) <<< 12 := by
    rw [Nat.shiftLeft_eq]
    omega
  rw [h1, h2, or_shift3 _ c d hc hd]
  omega

theorem and_3F (x : Nat) : x &&& 0x3F = x % 64 := Nat.and_pow_two_sub_one_eq_mod x 6
theorem and_1F (x : Nat) : x &&& 0x1F = x % 32 := Nat.and_pow_two_sub_one_eq_mod x 5
theorem and_0F (x : Nat) : x &&& 0x0F = x % 16 := Nat.and_pow_two_sub_one_eq_mod x 4
theorem and_07 (x : Nat) : x &&& 0x07 = x % 8 := Nat.and_pow_two_sub_one_eq_mod x 3

theorem or_80 (y : Nat) (h : y < 64) : 0x80 ||| y = 0x80 + y := by
  interval_cases y <;> rfl
theorem or_C0 (y : Nat) (h : y < 32) : 0xC0 ||| y = 0xC0 + y := by
  interval_cases y <;> rfl
theorem or_E0 (y : Nat) (h : y < 16) : 0xE0 ||| y = 0xE0 + y := by
  interval_cases y <;> rfl
theorem or_F0 (y : Nat) (h : y < 8) : 0xF0 ||| y = 0xF0 + y := by
  interval_cases y <;> rfl

theorem cont_byte (x : Nat) : 0x80 ||| (x % 256 &&& 0x3F) = 0x80 + x % 64 := by
  rw [and_3F, or_80 _ (Nat.mod_lt _ (by omega))]
  omega

theorem uint32_ofNat (i : Nat) (h : i ≤ 0x10FFFF) : (((i : Int)) % 4294967296).toNat = i := by
  omega

theorem encodeRune_one (i : Nat) (h : i ≤ 0x7F) : encodeRune (i : Int) = [i] := by
  unfold encodeRune
  rw [uint32_ofNat i (by omega)]
  simp only [if_pos h]
  congr 1
  omega

theorem encodeRune_two (i : Nat) (h1 : 0x7F < i) (h2 : i ≤ 0x7FF) :
    encodeRune (i : Int) = [0xC0 + i / 64, 0x80 + i % 64] := by
  unfold encodeRune
  rw [uint32_ofNat i (by omega)]
  simp only [if_neg (show ¬ i ≤ 0x7F by omega), if_pos h2]
  rw [cont_byte, Nat.shiftRight_eq_div_pow, or_C0 _ (by omega)]
  congr 2
  omega

theorem encode3_eq (i : Nat) (h2 : i ≤ 0xFFFF) :
    encode3 i = [0xE0 + i / 4096, 0x80 + i / 64 % 64, 0x80 + i % 64] := by
  unfold encode3
  rw [cont_byte, cont_byte, Nat.shiftRight_eq_div_pow, Nat.shiftRight_eq_div_pow,
    or_E0 _ (by omega)]
  congr 2
  omega

theorem encodeRune_three (i : Nat) (h1 : 0x7FF < i) (h2 : i ≤ 0xFFFF)
    (h3 : ¬ (0xD800 ≤ i ∧ i ≤ 0xDFFF)) :
    encodeRune (i : Int) = [0xE0 + i / 4096, 0x80 + i / 64 % 64, 0x80 + i % 64] := by
  unfold encodeRune
  rw [uint32_ofNat i (by omega)]
  simp only [if_neg (show ¬ i ≤ 0x7F by omega), if_neg (show ¬ i ≤ 0x7FF by omega),
    if_neg (show ¬ (i > 0x10FFFF ∨ (0xD800 ≤ i ∧ i ≤ 0xDFFF)) by omega), if_pos h2]
  exact encode3_eq i h2

theorem encodeRune_four (i : Nat) (h1 : 0xFFFF < i) (h2 : i ≤ 0x10FFFF) :
    encodeRune (i : Int) =
      [0xF0 + i / 262144, 0x80 + i / 4096 % 64, 0x80 + i / 64 % 64, 0x80 + i % 64] := by
  unfold encodeRune
  rw [uint32_ofNat i (by omega)]
  simp only [if_neg (show ¬ i ≤ 0x7F by omega), if_neg (show ¬ i ≤ 0x7FF by omega),
    if_neg (show ¬ (i > 0x10FFFF ∨ (0xD800 ≤ i ∧ i ≤ 0xDFFF)) by omega),
    if_neg (show ¬ i ≤ 0xFFFF by omega)]
  rw [cont_byte, cont_byte, cont_byte, Nat.shiftRight_eq_div_pow, Nat.shiftRight_eq_div_pow,
    Nat.shiftRight_eq_div_pow, or_F0 _ (by omega)]
  have e : i / 2 ^ 18 % 256 = i / 262144 := by omega
  have e2 : i / 2 ^ 12 = i / 4096 := by omega
  have e3 : i / 2 ^ 6 = i / 64 := by omega
  rw [e, e2, e3]

theorem decode_one (i : Nat) (h : i ≤ 0x7F) (rest : List Nat) :
    decodeRunesFrom 0 (i :: rest) = (i : Int) :: decodeRunesFrom 0 rest := by
  rw [decodeRunesFrom, if_pos (by omega)]

theorem decode_two (i : Nat) (h1 : 0x7F < i) (h2 : i ≤ 0x7FF) (rest : List Nat) :
    decodeRunesFrom 0 ((0xC0 + i / 64) :: (0x80 + i % 64) :: rest) =
      (i : Int) :: decodeRunesFrom 0 rest := by
  have hd : decoderune (0xC0 + i / 64) ((0x80 + i % 64) :: rest) = ((i : Int), 2) := by
    unfold decoderune
    rw [if_pos (by omega)]
    dsimp only
    rw [if_pos (by omega), and_1F, and_3F, or_shift2 _ _ (Nat.mod_lt _ (by omega))]
    have e : (0xC0 + i / 64) % 32 * 64 + (0x80 + i % 64) % 64 = i := by omega
    rw [e, if_pos h1]
  rw [decodeRunesFrom.eq_def]
  dsimp only
  rw [if_neg (by omega), hd]
  dsimp only
  rw [decodeRunesFrom.eq_def]

theorem decode_three (i : Nat) (h1 : 0x7FF < i) (h2 : i ≤ 0xFFFF)
    (h3 : ¬ (0xD800 ≤ i ∧ i ≤ 0xDFFF)) (rest : List Nat) :
    decodeRunesFrom 0 ((0xE0 + i / 4096) :: (0x80 + i / 64 % 64) :: (0x80 + i % 64) :: rest) =
      (i : Int) :: decodeRunesFrom 0 rest := by
  have hd : decoderune (0xE0 + i / 4096) ((0x80 + i / 64 % 64) :: (0x80 + i % 64) :: rest) =
      ((i : Int), 3) := by
    unfold decoderune
    rw [if_neg (by omega), if_pos (by omega)]
    dsimp only
    rw [if_pos (by omega), and_0F, and_3F, and_3F,
      or_shift3 _ _ _ (Nat.mod_lt _ (by omega)) (Nat.mod_lt _ (by omega))]
    have e : (0xE0 + i / 4096) % 16 * 4096 + (0x80 + i / 64 % 64) % 64 * 64 +
        (0x80 + i % 64) % 64 = i := by omega
    rw [e, if_pos ⟨h1, h3⟩]
  rw [decodeRunesFrom.eq_def]
  dsimp only
  rw [if_neg (by omega), hd]
  dsimp only
  rw [decodeRunesFrom.eq_def]
  dsimp only
  rw [decodeRunesFrom.eq_def]

theorem decode_four (i : Nat) (h1 : 0xFFFF < i) (h2 : i ≤ 0x10FFFF) (rest : List Nat) :
    decodeRunesFrom 0 ((0xF0 + i / 262144) :: (0x80 + i / 4096 % 64) :: (0x80 + i / 64 % 64) ::
        (0x80 + i % 64) :: rest) =
      (i : Int) :: decodeRunesFrom 0 rest := by
  have hd : decoderune (0xF0 + i / 262144)
      ((0x80 + i / 4096 % 64) :: (0x80 + i / 64 % 64) :: (0x80 + i % 64) :: rest) =
      ((i : Int), 4) := by
    unfold decoderune
    rw [if_neg (by omega), if_neg (by omega), if_pos (by omega)]
    dsimp only
    rw [if_pos (by omega), and_07, and_3F, and_3F, and_3F,
      or_shift4 _ _ _ _ (Nat.mod_lt _ (by omega)) (Nat.mod_lt _ (by omega))
        (Nat.mod_lt _ (by omega))]
    have e : (0xF0 + i / 262144) % 8 * 262144 + (0x80 + i / 4096 % 64) % 64 * 4096 +
        (0x80 + i / 64 % 64) % 64 * 64 + (0x80 + i % 64) % 64 = i := by omega
    rw [e, if_pos ⟨h1, h2⟩]
  rw [decodeRunesFrom.eq_def]
  dsimp only
  rw [if_neg (by omega), hd]
  dsimp only
  rw [decodeRunesFrom.eq_def]
  dsimp only
  rw [decodeRunesFrom.eq_def]
  dsimp only
  rw [decodeRunesFrom.eq_def]

/-- Decoding undoes the encoding of a Unicode scalar value. -/
theorem decode_encodeRune (r : Int) (hv : ValidRune r) (rest : List Nat) :
    decodeRunesFrom 0 (encodeRune r ++ rest) = r :: decodeRunesFrom 0 rest := by
  have h0 : 0 ≤ r := by
    unfold ValidRune at hv
    omega
  obtain ⟨i, rfl⟩ := Int.eq_ofNat_of_zero_le h0
  have hi : i ≤ 0x10FFFF ∧ ¬ (0xD800 ≤ i ∧ i ≤ 0xDFFF) := by
    unfold ValidRune at hv
    omega
  by_cases c1 : i ≤ 0x7F
  · rw [encodeRune_one i c1]
    exact decode_one i c1 rest
  by_cases c2 : i ≤ 0x7FF
  · rw [encodeRune_two i (by omega) c2]
    exact decode_two i (by omega) c2 rest
  by_cases c3 : i ≤ 0xFFFF
  · rw [encodeRune_three i (by omega) c3 hi.2]
    exact decode_three i (by omega) c3 hi.2 rest
  · rw [encodeRune_four i (by omega) hi.1]
    exact decode_four i (by omega) hi.1 rest

theorem decodeRunes_utf8 (text : List Int) (hv : ∀ r ∈ text, ValidRune r) :
    decodeRunes (utf8 text) = text := by
  unfold decodeRunes utf8
  induction text with
  | nil => rfl
  | cons r t ih =>
    rw [List.flatMap_cons, decode_encodeRune r (hv r (List.mem_cons_self r t)),
      ih (fun x hx => hv x (List.mem_cons_of_mem r hx))]

/-- The bytes of an encoded scalar value hold a line feed only for the line feed. -/
theorem ten_not_mem_encodeRune (r : Int) (hv : ValidRune r) (h10 : r ≠ 10) :
    10 ∉ encodeRune r := by
  have h0 : 0 ≤ r := by
    unfold ValidRune at hv
    omega
  obtain ⟨i, rfl⟩ := Int.eq_ofNat_of_zero_le h0
  have hi : i ≤ 0x10FFFF ∧ ¬ (0xD800 ≤ i ∧ i ≤ 0xDFFF) ∧ i ≠ 10 := by
    unfold ValidRune at hv
    omega
  by_cases c1 : i ≤ 0x7F
  · rw [encodeRune_one i c1]
    simp
    omega
  by_cases c2 : i ≤ 0x7FF
  · rw [encodeRune_two i (by omega) c2]
    simp
    omega
  by_cases c3 : i ≤ 0xFFFF
  · rw [encodeRune_three i (by omega) c3 hi.2.1]
    simp
    omega
  · rw [encodeRune_four i (by omega) hi.1]
    simp
    omega

/-! ## Lines of a text, construction and serialization -/

theorem splitLines_append (front rest line : List Nat) (more : List (List Nat))
    (h10 : 10 ∉ front) (hrest : splitLines rest = line :: more) :
    splitLines (front ++ rest) = (front ++ line) :: more := by
  induction front with
  | nil => simpa using hrest
  | cons b t ih =>
    have hb : b ≠ 10 := fun h => h10 (by simp [h])
    have ht : 10 ∉ t := fun h => h10 (List.mem_cons_of_mem b h)
    rw [List.cons_append, splitLines, if_neg hb, ih ht]
    rfl

theorem splitText_ne_nil (text : List Int) : splitText text ≠ [] := by
  cases text with
  | nil => simp [splitText]
  | cons r t =>
    unfold splitText
    split_ifs
    · simp
    · split <;> simp

theorem encodeRune_ten : encodeRune 10 = [10] := by decide

theorem splitLines_utf8 (text : List Int) (hv : ∀ r ∈ text, ValidRune r) :
    splitLines (utf8 text) = (splitText text).map utf8 := by
  induction text with
  | nil => rfl
  | cons r t ih =>
    have iht := ih (fun x hx => hv x (List.mem_cons_of_mem r hx))
    have hr := hv r (List.mem_cons_self r t)
    by_cases h10 : r = 10
    · subst h10
      rw [splitText, if_pos rfl]
      show splitLines (encodeRune 10 ++ utf8 t) = _
      rw [encodeRune_ten]
      show splitLines (10 :: utf8 t) = _
      rw [splitLines, if_pos rfl, iht]
      rfl
    · rw [splitText, if_neg h10]
      cases hs : splitText t with
      | nil => exact absurd hs (splitText_ne_nil t)
      | cons line more =>
        rw [hs] at iht
        show splitLines (encodeRune r ++ utf8 t) = _
        rw [splitLines_append _ _ _ _ (ten_not_mem_encodeRune r hr h10) iht]
        simp [utf8]

theorem mem_splitText (text : List Int) (line : List Int) (hl : line ∈ splitText text)
    (r : Int) (hr : r ∈ line) : r ∈ text ∧ r ≠ 10 := by
  induction text generalizing line with
  | nil =>
    simp [splitText] at hl
    subst hl
    simp at hr
  | cons a t ih =>
    unfold splitText at hl
    split_ifs at hl with h10
    · rcases List.mem_cons.1 hl with h | h
      · subst h
        simp at hr
      · have := ih line h hr
        exact ⟨List.mem_cons_of_mem a this.1, this.2⟩
    · cases hs : splitText t with
      | nil => exact absurd hs (splitText_ne_nil t)
      | cons first more =>
        rw [hs] at hl ih
        simp only [List.mem_cons] at hl
        rcases hl with h | h
        · subst h
          rcases List.mem_cons.1 hr with h2 | h2
          · subst h2
            exact ⟨List.mem_cons_self _ _, h10⟩
          · have := ih first (List.mem_cons_self _ _) h2
            exact ⟨List.mem_cons_of_mem a this.1, this.2⟩
        · have := ih line (List.mem_cons_of_mem _ h) hr
          exact ⟨List.mem_cons_of_mem a this.1, this.2⟩

theorem newRegionLoop_lines (ls : List (List Nat)) (acc : List (List Int)) (w : Int) :
    (newRegionLoop ls acc w).lines = acc ++ ls.map decodeRunes := by
  induction ls generalizing acc w with
  | nil => simp [newRegionLoop]
  | cons l rest ih =>
    rw [newRegionLoop, ih]
    simp

theorem NewRegion_lines (input : List Nat) :
    (NewRegion input).lines = (splitLines input).map decodeRunes := by
  rw [NewRegion, newRegionLoop_lines]
  rfl

theorem NewRegion_utf8_lines (text : List Int) (hv : ∀ r ∈ text, ValidRune r) :
    (NewRegion (utf8 text)).lines = splitText text := by
  rw [NewRegion_lines, splitLines_utf8 text hv, List.map_map]
  conv_rhs => rw [← List.map_id (splitText text)]
  apply List.map_congr_left
  intro line hline
  exact decodeRunes_utf8 line (fun r hr => hv r (mem_splitText text line hline r hr).1)

theorem foldl_encodeRune (line : List Int) (b : List Nat) :
    line.foldl (fun acc r => acc ++ encodeRune r) b = b ++ utf8 line := by
  induction line generalizing b with
  | nil => simp [utf8]
  | cons r t ih =>
    rw [List.foldl_cons, ih]
    simp [utf8]

theorem stringLoop_succ (row : Nat) (ls : List (List Int)) (b : List Nat) :
    stringLoop (row + 1) ls b = b ++ ls.flatMap (fun l => 10 :: utf8 l) := by
  induction ls generalizing row b with
  | nil => simp [stringLoop]
  | cons l rest ih =>
    rw [stringLoop]
    simp only [if_pos (Nat.succ_pos row)]
    rw [ih, foldl_encodeRune, encodeRune_ten]
    simp

theorem stringLoop_zero (l : List Int) (rest : List (List Int)) :
    stringLoop 0 (l :: rest) [] = utf8 l ++ rest.flatMap (fun l => 10 :: utf8 l) := by
  rw [stringLoop]
  simp only [if_neg (Nat.lt_irrefl 0)]
  rw [stringLoop_succ, foldl_encodeRune]
  simp

theorem utf8_splitText (text l : List Int) (rest : List (List Int))
    (hs : splitText text = l :: rest) :
    utf8 text = utf8 l ++ rest.flatMap (fun l => 10 :: utf8 l) := by
  induction text generalizing l rest with
  | nil =>
    simp only [splitText, List.cons.injEq] at hs
    obtain ⟨h1, h2⟩ := hs
    subst h1 h2
    rfl
  | cons r t ih =>
    unfold splitText at hs
    split_ifs at hs with h10
    · simp only [List.cons.injEq] at hs
      obtain ⟨h1, h2⟩ := hs
      subst h1 h2 h10
      cases hs2 : splitText t with
      | nil => exact absurd hs2 (splitText_ne_nil t)
      | cons first more =>
        have := ih first more hs2
        show encodeRune 10 ++ utf8 t = _
        rw [this, encodeRune_ten]
        simp [utf8]
    · cases hs2 : splitText t with
      | nil => exact absurd hs2 (splitText_ne_nil t)
      | cons first more =>
        rw [hs2] at hs
        simp only [List.cons.injEq] at hs
        obtain ⟨h1, h2⟩ := hs
        subst h1 h2
        have := ih first more hs2
        show encodeRune r ++ utf8 t = _
        rw [this]
        simp [utf8]

/-- Serializing the lines of a text gives back the encoded text. -/
theorem String_of_lines (g : Region) (text : List Int) (hl : g.lines = splitText text) :
    g.String = utf8 text := by
  unfold Region.String
  rw [hl]
  cases hs : splitText text with
  | nil => exact absurd hs (splitText_ne_nil text)
  | cons l rest => rw [stringLoop_zero, utf8_splitText text l rest hs]

theorem Get_mem (g : Region) (i j : Int) (hb : g.InBounds i j) :
    ∃ line ∈ g.lines, g.Get i j ∈ line := by
  obtain ⟨h0, h1, h2, h3⟩ := hb
  have hn : i.toNat < g.lines.length := by omega
  rw [List.getD_eq_getElem _ _ hn] at h3
  have hm : j.toNat < (g.lines[i.toNat]).length := by omega
  have e := Get_eq_getElem g i.toNat j.toNat hn hm
  rw [Int.toNat_of_nonneg h0, Int.toNat_of_nonneg h2] at e
  exact ⟨_, List.getElem_mem hn, by rw [e]; exact List.getElem_mem hm⟩

/-- A region holding none of '|', '-', '+', '*' is left as it is by the pass. -/
theorem convert_of_no_marker (g : Region)
    (h : ∀ line ∈ g.lines, ∀ r ∈ line, r ≠ 124 ∧ r ≠ 45 ∧ r ≠ 43 ∧ r ≠ 42) :
    convert g = g := by
  apply Region.eq_of_Get (convert_shape g)
  intro i j
  rw [Get_convert]
  split_ifs with hj
  · by_cases hb : g.InBounds i j
    · obtain ⟨line, hline, hmem⟩ := Get_mem g i j hb
      obtain ⟨h1, h2, h3, h4⟩ := h line hline _ hmem
      simp [cellResult, convChar, h1, h2, h3, h4]
    · rw [cellResult_of_not_InBounds g i j hb, Get_of_not_InBounds g i j hb]
  · rfl

theorem newRegionLoop_RowsFit (ls : List (List Nat)) (acc : List (List Int)) (w : Int)
    (h : ∀ line ∈ acc, (line.length : Int) ≤ w) : (newRegionLoop ls acc w).RowsFit := by
  induction ls generalizing acc w with
  | nil => exact h
  | cons l rest ih =>
    rw [newRegionLoop]
    apply ih
    intro line hline
    rcases List.mem_append.1 hline with h1 | h1
    · have := h line h1
      split_ifs <;> omega
    · simp only [List.mem_singleton] at h1
      subst h1
      split_ifs <;> omega

/-- Every region built by `NewRegion` has its rows inside its width. -/
theorem NewRegion_RowsFit (input : List Nat) : (NewRegion input).RowsFit :=
  newRegionLoop_RowsFit _ _ _ (by simp)

/-! ## The cells the pass visits, and any order of visits -/

theorem colLoop_eq_runOrder (row : Int) (fuel : Nat) (col : Int) (r : Region) :
    colLoop row fuel col r = runOrder r (colVisits row fuel col r) := by
  induction fuel generalizing col r with
  | zero => rfl
  | succ n ih =>
    unfold colLoop colVisits
    split_ifs with h
    · rw [ih]
      rfl
    · rfl

theorem runOrder_append (r : Region) (a b : List (Int × Int)) :
    runOrder r (a ++ b) = runOrder (runOrder r a) b := by
  unfold runOrder
  rw [List.foldl_append]

theorem rowLoop_eq_runOrder (fuel : Nat) (row : Int) (r : Region) :
    rowLoop fuel row r = runOrder r (rowVisits fuel row r) := by
  induction fuel generalizing row r with
  | zero => rfl
  | succ n ih =>
    unfold rowLoop rowVisits
    split_ifs with h
    · rw [runOrder_append, ← colLoop_eq_runOrder, ih]
    · rfl

/-- The pass is the loop body run on the visited cells in the order of the visits. -/
theorem convert_eq_runOrder (g : Region) : convert g = runOrder g (visits g) :=
  rowLoop_eq_runOrder _ _ _

theorem mem_colVisits (row : Int) (fuel : Nat) (col : Int) (r : Region) (i j : Int)
    (hfuel : r.Width - col ≤ fuel) :
    (i, j) ∈ colVisits row fuel col r ↔ i = row ∧ col ≤ j ∧ j < r.Width := by
  induction fuel generalizing col r with
  | zero =>
    unfold colVisits
    simp only [List.not_mem_nil, false_iff]
    have : r.Width - col ≤ 0 := by exact_mod_cast hfuel
    omega
  | succ n ih =>
    unfold colVisits
    have hw : (processCell r row col).Width = r.Width := (processCell_shape r row col).1
    split_ifs with h
    · rw [List.mem_cons, ih (col + 1) _ (by rw [hw]; push_cast at hfuel; omega), hw,
        Prod.mk.injEq]
      omega
    · simp only [List.not_mem_nil, false_iff]
      omega

theorem mem_rowVisits (fuel : Nat) (row : Int) (r : Region) (i j : Int)
    (hfuel : r.Height - row ≤ fuel) :
    (i, j) ∈ rowVisits fuel row r ↔ (row ≤ i ∧ i < r.Height) ∧ (0 ≤ j ∧ j < r.Width) := by
  induction fuel generalizing row r with
  | zero =>
    unfold rowVisits
    simp only [List.not_mem_nil, false_iff]
    have : r.Height - row ≤ 0 := by exact_mod_cast hfuel
    omega
  | succ n ih =>
    unfold rowVisits
    have hs := colLoop_shape row r.Width.toNat 0 r
    have hw : (colLoop row r.Width.toNat 0 r).Width = r.Width := hs.1
    have hh : (colLoop row r.Width.toNat 0 r).Height = r.Height := hs.height
    split_ifs with h
    · rw [List.mem_append, mem_colVisits row _ 0 r i j (by omega),
        ih (row + 1) _ (by rw [hh]; push_cast at hfuel; omega), hw, hh]
      omega
    · simp only [List.not_mem_nil, false_iff]
      omega

/-- The pass visits exactly the cells of the rectangle `Height` by `Width`. -/
theorem mem_visits (g : Region) (i j : Int) :
    (i, j) ∈ visits g ↔ (0 ≤ i ∧ i < g.Height) ∧ (0 ≤ j ∧ j < g.Width) := by
  unfold visits
  exact mem_rowVisits _ 0 g i j (by omega)

/-! ## Width and number of rows of a built region -/

theorem maxRowLen_congr {l1 l2 : List (List Int)} (h : l1.map List.length = l2.map List.length) :
    maxRowLen l1 = maxRowLen l2 := by
  induction l1 generalizing l2 with
  | nil =>
    cases l2 with
    | nil => rfl
    | cons b t => simp at h
  | cons a t ih =>
    cases l2 with
    | nil => simp at h
    | cons b t2 =>
      simp only [List.map_cons, List.cons.injEq] at h
      rw [maxRowLen, maxRowLen, ih h.2, h.1]

theorem maxRowLen_nonneg (l : List (List Int)) : 0 ≤ maxRowLen l := by
  cases l with
  | nil => exact le_refl _
  | cons b t =>
    rw [maxRowLen]
    omega

theorem newRegionLoop_maxWidth (ls : List (List Nat)) (acc : List (List Int)) (w : Int)
    (hw : 0 ≤ w) :
    (newRegionLoop ls acc w).maxWidth = max w (maxRowLen (ls.map decodeRunes)) := by
  induction ls generalizing acc w with
  | nil =>
    rw [newRegionLoop, List.map_nil, maxRowLen]
    show w = max w 0
    omega
  | cons l rest ih =>
    rw [newRegionLoop, ih _ _ (by split_ifs <;> omega), List.map_cons, maxRowLen]
    omega

/-- `NewRegion` records as width the greatest row length. -/
theorem NewRegion_maxWidth (input : List Nat) :
    (NewRegion input).maxWidth = maxRowLen (NewRegion input).lines := by
  rw [NewRegion_lines, NewRegion, newRegionLoop_maxWidth _ _ _ (le_refl 0)]
  have := maxRowLen_nonneg ((splitLines input).map decodeRunes)
  omega

theorem maxRowLen_eq_zero (l : List (List Int)) (h : ∀ row ∈ l, row = []) : maxRowLen l = 0 := by
  induction l with
  | nil => rfl
  | cons a t ih =>
    rw [maxRowLen, ih (fun row hrow => h row (List.mem_cons_of_mem a hrow)),
      h a (List.mem_cons_self a t)]
    rfl

theorem splitLines_ne_nil (input : List Nat) : splitLines input ≠ [] := by
  cases input with
  | nil => simp [splitLines]
  | cons b t =>
    unfold splitLines
    split_ifs
    · simp
    · split <;> simp

theorem splitLines_length (input : List Nat) :
    (splitLines input).length = input.count 10 + 1 := by
  induction input with
  | nil => rfl
  | cons b t ih =>
    unfold splitLines
    split_ifs with h
    · subst h
      rw [List.length_cons, ih, List.count_cons_self]
    · have hc : List.count 10 (b :: t) = List.count 10 t := List.count_cons_of_ne (fun e => h e.symm) t
      rw [hc, ← ih]
      cases hs : splitLines t with
      | nil => exact absurd hs (splitLines_ne_nil t)
      | cons first more => rfl

theorem splitText_length (text : List Int) :
    (splitText text).length = text.count 10 + 1 := by
  induction text with
  | nil => rfl
  | cons b t ih =>
    unfold splitText
    split_ifs with h
    · subst h
      rw [List.length_cons, ih, List.count_cons_self]
    · have hc : List.count 10 (b :: t) = List.count 10 t := List.count_cons_of_ne (fun e => h e.symm) t
      rw [hc, ← ih]
      cases hs : splitText t with
      | nil => exact absurd hs (splitText_ne_nil t)
      | cons first more => rfl

/-! ## The loop body in any order, and the cell-by-cell conversion of the specification -/

theorem isLine_Get_processCell (r : Region) (row col i j : Int) :
    isLine ((processCell r row col).Get i j) = isLine (r.Get i j) := by
  rw [Get_processCell]
  split_ifs with h
  · rw [h.1, h.2]
    exact isLine_cellResult r row col
  · rfl

theorem isLine_Get_runOrder (r : Region) (order : List (Int × Int)) (i j : Int) :
    isLine ((runOrder r order).Get i j) = isLine (r.Get i j) := by
  induction order generalizing r with
  | nil => rfl
  | cons p rest ih =>
    show isLine ((runOrder (processCell r p.1 p.2) rest).Get i j) = _
    rw [ih, isLine_Get_processCell]

theorem runOrder_shape (r : Region) (order : List (Int × Int)) :
    SameShape (runOrder r order) r := by
  induction order generalizing r with
  | nil => exact SameShape.refl r
  | cons p rest ih =>
    show SameShape (runOrder (processCell r p.1 p.2) rest) r
    exact (ih _).trans (processCell_shape r p.1 p.2)

theorem CellInv.isLine_agrees {g cur : Region} {D : Int → Int → Prop} (h : CellInv g cur D)
    (i j : Int) : isLine (cur.Get i j) = isLine (g.Get i j) := by
  by_cases hd : D i j
  · rw [(h.2 i j).1 hd]
    exact isLine_cellResult g i j
  · rw [(h.2 i j).2 hd]

theorem CellInv.congr {g cur : Region} {D E : Int → Int → Prop} (h : CellInv g cur D)
    (hiff : ∀ i j, D i j ↔ E i j) : CellInv g cur E :=
  ⟨h.1, fun i j => ⟨fun he => (h.2 i j).1 ((hiff i j).2 he),
    fun hne => (h.2 i j).2 (fun hd => hne ((hiff i j).1 hd))⟩⟩

theorem CellInv.after_cell {g cur : Region} {D : Int → Int → Prop} (h : CellInv g cur D)
    (row col : Int) :
    CellInv g (processCell cur row col) (fun i j => D i j ∨ (i = row ∧ j = col)) := by
  have hidx : neighbourIndex cur row col = neighbourIndex g row col :=
    neighbourIndex_congr cur g row col h.isLine_agrees
  have hcell : cellResult cur row col = cellResult g row col := by
    rw [cellResult, hidx]
    by_cases hd : D row col
    · rw [(h.2 row col).1 hd, cellResult]
      exact convChar_idem _ _ (neighbourIndex_lt g row col)
    · rw [(h.2 row col).2 hd, cellResult]
  refine ⟨(processCell_shape cur row col).trans h.1, fun i j => ⟨?_, ?_⟩⟩
  · intro hd
    rw [Get_processCell]
    split_ifs with hij
    · rw [hij.1, hij.2, hcell]
    · rcases hd with hd | hd
      · exact (h.2 i j).1 hd
      · exact absurd hd hij
  · intro hd
    rw [Get_processCell, if_neg (fun hij => hd (Or.inr hij))]
    exact (h.2 i j).2 (fun hD => hd (Or.inl hD))

theorem CellInv.after_order {g : Region} (order : List (Int × Int)) (cur : Region)
    (D : Int → Int → Prop) (h : CellInv g cur D) :
    CellInv g (runOrder cur order) (fun i j => D i j ∨ (i, j) ∈ order) := by
  induction order generalizing cur D with
  | nil =>
    apply h.congr
    intro i j
    simp
  | cons p rest ih =>
    show CellInv g (AsciiArt.runOrder (processCell cur p.1 p.2) rest) _
    apply (ih _ _ (h.after_cell p.1 p.2)).congr
    intro i j
    rw [List.mem_cons, Prod.ext_iff]
    tauto

theorem CellInv.initial (g : Region) : CellInv g g (fun _ _ => False) :=
  ⟨SameShape.refl g, fun _ _ => ⟨fun h => h.elim, fun _ => rfl⟩⟩

/-- The loop body run over any list of cells converts exactly the cells of the list,
each from the input region alone. -/
theorem Get_runOrder (g : Region) (order : List (Int × Int)) (i j : Int) :
    ((i, j) ∈ order → (runOrder g order).Get i j = cellResult g i j) ∧
    ((i, j) ∉ order → (runOrder g order).Get i j = g.Get i j) := by
  have h := (CellInv.after_order order g _ (CellInv.initial g)).2 i j
  simp only [false_or] at h
  exact h

theorem specMask_eq (g : Region) (row col : Int) :
    specMask g row col = neighbourIndex g row col := by
  unfold specMask neighbourIndex
  cases isLine (g.Get (row - 1) col) <;> cases isLine (g.Get (row + 1) col) <;>
    cases isLine (g.Get row (col - 1)) <;> cases isLine (g.Get row (col + 1)) <;>
    decide

theorem specCell_eq (g : Region) (row col : Int) : specCell g row col = cellResult g row col := by
  unfold specCell cellResult convChar
  rw [specMask_eq]

theorem specConvert_shape (g : Region) : SameShape (specConvert g) g := by
  refine ⟨rfl, ?_⟩
  apply List.ext_getElem
  · simp [specConvert]
  · intro n h1 h2
    simp [specConvert]

theorem Get_specConvert (g : Region) (i j : Int) :
    (specConvert g).Get i j = cellResult g i j := by
  by_cases hb : g.InBounds i j
  · obtain ⟨h0, h1, h2, h3⟩ := hb
    have hn : i.toNat < g.lines.length := by omega
    rw [List.getD_eq_getElem _ _ hn] at h3
    have hm : j.toNat < (g.lines[i.toNat]).length := by omega
    have hn2 : i.toNat < (specConvert g).lines.length := by simpa [specConvert] using hn
    have hm2 : j.toNat < ((specConvert g).lines[i.toNat]).length := by
      simpa [specConvert] using hm
    have e := Get_eq_getElem (specConvert g) i.toNat j.toNat hn2 hm2
    rw [Int.toNat_of_nonneg h0, Int.toNat_of_nonneg h2] at e
    rw [e, ← specCell_eq]
    simp [specConvert, Int.toNat_of_nonneg h0, Int.toNat_of_nonneg h2]
  · have hb2 : ¬ (specConvert g).InBounds i j := by
      intro h
      apply hb
      obtain ⟨h0, h1, h2, h3⟩ := h
      have hl : (specConvert g).lines.length = g.lines.length := by simp [specConvert]
      have hr := lengths_getD (specConvert_shape g).2 i.toNat
      exact ⟨h0, by omega, h2, by omega⟩
    rw [Get_of_not_InBounds _ i j hb2, cellResult_of_not_InBounds g i j hb]

theorem mem_columnMajor (g : Region) (i j : Int) :
    (i, j) ∈ columnMajor g ↔ (0 ≤ i ∧ i < g.Height) ∧ (0 ≤ j ∧ j < g.Width) := by
  unfold columnMajor
  rw [List.mem_flatMap]
  constructor
  · rintro ⟨c, hc, hmem⟩
    obtain ⟨r, hr, heq⟩ := List.mem_map.1 hmem
    rw [List.mem_range] at hc hr
    rw [Prod.mk.injEq] at heq
    omega
  · rintro ⟨⟨h1, h2⟩, ⟨h3, h4⟩⟩
    refine ⟨j.toNat, List.mem_range.2 (by omega), List.mem_map.2 ⟨i.toNat, ?_, ?_⟩⟩
    · exact List.mem_range.2 (by omega)
    · rw [Prod.mk.injEq]
      omega

theorem convChar_marker (ch : Int) (index : Nat) (h : index < 16) :
    (convChar ch index ≠ 124 ∧ convChar ch index ≠ 45 ∧ convChar ch index ≠ 42) ∧
    (convChar ch index = 43 → (ch = 43 ∨ ch = 42) ∧ index = 0) := by
  by_cases h1 : ch = 124
  · subst h1; interval_cases index <;> decide
  by_cases h2 : ch = 45
  · subst h2; interval_cases index <;> decide
  by_cases h3 : ch = 43
  · subst h3; interval_cases index <;> decide
  by_cases h4 : ch = 42
  · subst h4; interval_cases index <;> decide
  have e : convChar ch index = ch := by simp [convChar, h1, h2, h3, h4]
  rw [e]
  exact ⟨⟨h1, h2, h4⟩, fun h => absurd h h3⟩

theorem neighbourIndex_zero_imp (g : Region) (row col : Int)
    (h : neighbourIndex g row col = 0) :
    (isLine (g.Get (row - 1) col) = false ∧ isLine (g.Get (row + 1) col) = false) ∧
    (isLine (g.Get row (col - 1)) = false ∧ isLine (g.Get row (col + 1)) = false) := by
  unfold neighbourIndex at h
  revert h
  cases isLine (g.Get (row - 1) col) <;> cases isLine (g.Get (row + 1) col) <;>
    cases isLine (g.Get row (col - 1)) <;> cases isLine (g.Get row (col + 1)) <;>
    decide

theorem colVisits_length (row : Int) (fuel : Nat) (col : Int) (r : Region)
    (hfuel : r.Width - col ≤ fuel) :
    (colVisits row fuel col r).length = (r.Width - col).toNat := by
  induction fuel generalizing col r with
  | zero =>
    unfold colVisits
    have : r.Width - col ≤ 0 := by exact_mod_cast hfuel
    rw [List.length_nil]
    omega
  | succ n ih =>
    unfold colVisits
    have hw : (processCell r row col).Width = r.Width := (processCell_shape r row col).1
    split_ifs with h
    · rw [List.length_cons, ih (col + 1) _ (by rw [hw]; push_cast at hfuel; omega), hw]
      omega
    · rw [List.length_nil]
      omega

theorem rowVisits_length (fuel : Nat) (row : Int) (r : Region)
    (hfuel : r.Height - row ≤ fuel) :
    (rowVisits fuel row r).length = (r.Height - row).toNat * r.Width.toNat := by
  induction fuel generalizing row r with
  | zero =>
    unfold rowVisits
    have : r.Height - row ≤ 0 := by exact_mod_cast hfuel
    have e : (r.Height - row).toNat = 0 := by omega
    rw [List.length_nil, e, Nat.zero_mul]
  | succ n ih =>
    unfold rowVisits
    have hs := colLoop_shape row r.Width.toNat 0 r
    have hw : (colLoop row r.Width.toNat 0 r).Width = r.Width := hs.1
    have hh : (colLoop row r.Width.toNat 0 r).Height = r.Height := hs.height
    split_ifs with h
    · rw [List.length_append, colVisits_length row _ 0 r (by omega),
        ih (row + 1) _ (by rw [hh]; push_cast at hfuel; omega), hw, hh]
      have e : (r.Height - row).toNat = (r.Height - (row + 1)).toNat + 1 := by omega
      rw [e, Nat.succ_mul, Int.sub_zero, Nat.add_comm]
    · have e : (r.Height - row).toNat = 0 := by omega
      rw [List.length_nil, e, Nat.zero_mul]

/-! ## The loops end: the visits do not depend on the fuel -/

theorem colVisits_eq (row : Int) (fuel : Nat) (col : Int) (r : Region)
    (hfuel : r.Width - col ≤ fuel) :
    colVisits row fuel col r =
      (List.range (r.Width - col).toNat).map (fun (k : Nat) => (row, col + (k : Int))) := by
  induction fuel generalizing col r with
  | zero =>
    unfold colVisits
    have : r.Width - col ≤ 0 := by exact_mod_cast hfuel
    have e : (r.Width - col).toNat = 0 := by omega
    rw [e]
    rfl
  | succ n ih =>
    unfold colVisits
    have hw : (processCell r row col).Width = r.Width := (processCell_shape r row col).1
    split_ifs with h
    · rw [ih (col + 1) _ (by rw [hw]; push_cast at hfuel; omega), hw]
      have e : (r.Width - col).toNat = (r.Width - (col + 1)).toNat + 1 := by omega
      rw [e, List.range_succ_eq_map, List.map_cons, List.map_map]
      congr 1
      · simp
      · apply List.map_congr_left
        intro k _
        simp only [Function.comp, Prod.mk.injEq, true_and, Nat.succ_eq_add_one]
        push_cast
        omega
    · have e : (r.Width - col).toNat = 0 := by omega
      rw [e]
      rfl

theorem rowVisits_eq (fuel : Nat) (row : Int) (r : Region)
    (hfuel : r.Height - row ≤ fuel) :
    rowVisits fuel row r =
      (List.range (r.Height - row).toNat).flatMap (fun (a : Nat) =>
        (List.range r.Width.toNat).map (fun (c : Nat) => (row + (a : Int), (c : Int)))) := by
  induction fuel generalizing row r with
  | zero =>
    unfold rowVisits
    have : r.Height - row ≤ 0 := by exact_mod_cast hfuel
    have e : (r.Height - row).toNat = 0 := by omega
    rw [e]
    rfl
  | succ n ih =>
    unfold rowVisits
    have hs := colLoop_shape row r.Width.toNat 0 r
    have hw : (colLoop row r.Width.toNat 0 r).Width = r.Width := hs.1
    have hh : (colLoop row r.Width.toNat 0 r).Height = r.Height := hs.height
    split_ifs with h
    · rw [colVisits_eq row _ 0 r (by omega),
        ih (row + 1) _ (by rw [hh]; push_cast at hfuel; omega), hw, hh]
      have e : (r.Height - row).toNat = (r.Height - (row + 1)).toNat + 1 := by omega
      rw [e, List.range_succ_eq_map, List.flatMap_cons, List.flatMap_map, Int.sub_zero]
      congr 1
      · apply List.map_congr_left
        intro k _
        simp
      · congr 1
        funext a
        apply List.map_congr_left
        intro k _
        simp only [Function.comp, Prod.mk.injEq, and_true, Nat.succ_eq_add_one]
        push_cast
        omega
    · have e : (r.Height - row).toNat = 0 := by omega
      rw [e]
      rfl

/-- With any fuel of at least `Height`, the two loops run the body on the cells of
the rectangle `Height` by `Width`, each once, row by row. -/
theorem rowVisits_eq_rowMajor (fuel : Nat) (g : Region) (hfuel : g.Height ≤ fuel) :
    rowVisits fuel 0 g = rowMajor g.Height.toNat g.Width.toNat := by
  rw [rowVisits_eq fuel 0 g (by omega), Int.sub_zero]
  unfold rowMajor
  congr 1
  funext a
  apply List.map_congr_left
  intro k _
  simp

/-! ## The properties of the specification -/

/-- C1: the three-line text "+--+", "|  |", "+--+" is built into a grid, converted and
serialized to the box U+250C U+2500 U+2500 U+2510 / U+2502 space space U+2502 /
U+2514 U+2500 U+2500 U+2518, rune by rune and byte by byte. -/
theorem end_to_end_box :
    (convert (NewRegion (bytesOf "+--+\n|  |\n+--+"))).lines =
      [[0x250C, 0x2500, 0x2500, 0x2510], [0x2502, 32, 32, 0x2502],
       [0x2514, 0x2500, 0x2500, 0x2518]] ∧
    processFile (bytesOf "+--+\n|  |\n+--+") = bytesOf "┌──┐\n│  │\n└──┘" := by
  decide

/-- C2: the conversion pass is idempotent on every region, whatever its rows and
its width field: converting a converted region changes nothing. -/
theorem convert_idempotent (g : Region) : convert (convert g) = convert g := by
  apply Region.eq_of_Get (convert_shape (convert g))
  intro i j
  have hw : (convert g).maxWidth = g.maxWidth := (convert_shape g).1
  rw [Get_convert (convert g), hw]
  split_ifs with hj
  · have hidx : neighbourIndex (convert g) i j = neighbourIndex g i j :=
      neighbourIndex_congr _ _ i j (isLine_Get_convert g)
    rw [cellResult, hidx, Get_convert g, if_pos hj, cellResult]
    exact convChar_idem _ _ (neighbourIndex_lt g i j)
  · rfl

/-- C3, as stated, fails: in the one-cell grid built from the text "*" the cell holds
'*' (42), no neighbour is a connector, and after the pass the cell holds '+' (43). -/
theorem isolated_star_not_kept :
    (NewRegion (bytesOf "*")).Get 0 0 = 42 ∧
    isLine ((NewRegion (bytesOf "*")).Get (0 - 1) 0) = false ∧
    isLine ((NewRegion (bytesOf "*")).Get (0 + 1) 0) = false ∧
    isLine ((NewRegion (bytesOf "*")).Get 0 (0 - 1)) = false ∧
    isLine ((NewRegion (bytesOf "*")).Get 0 (0 + 1)) = false ∧
    (convert (NewRegion (bytesOf "*"))).Get 0 0 = 43 ∧
    (convert (NewRegion (bytesOf "*"))).Get 0 0 ≠ (NewRegion (bytesOf "*")).Get 0 0 := by
  decide

/-- C3, amended: in a region whose rows fit its width, a cell holding '+' or '*' none
of whose four axis neighbours is a connector holds '+' after the pass; so an isolated
'+' is unchanged and an isolated '*' becomes '+'. -/
theorem isolated_junction_becomes_plus (g : Region) (hfit : g.RowsFit) (row col : Int)
    (hch : g.Get row col = 43 ∨ g.Get row col = 42)
    (hu : isLine (g.Get (row - 1) col) = false) (hd : isLine (g.Get (row + 1) col) = false)
    (hl : isLine (g.Get row (col - 1)) = false) (hr : isLine (g.Get row (col + 1)) = false) :
    (convert g).Get row col = 43 ∧ (g.Get row col = 43 → (convert g).Get row col = g.Get row col) := by
  have h43 : (convert g).Get row col = 43 := by
    rw [Get_convert_of_fit g hfit, cellResult, neighbourIndex_eq_zero g row col hu hd hl hr]
    rcases hch with h | h <;> rw [h] <;> decide
  exact ⟨h43, fun h => by rw [h43, h]⟩

theorem isolated_junction_becomes_plus_witness :
    (NewRegion (bytesOf "a*\n  ")).Get 0 1 = 42 ∧
    (convert (NewRegion (bytesOf "a*\n  "))).Get 0 1 = 43 ∧
    (NewRegion (bytesOf "a+\n  ")).Get 0 1 = 43 ∧
    (convert (NewRegion (bytesOf "a+\n  "))).Get 0 1 = (NewRegion (bytesOf "a+\n  ")).Get 0 1 :=
  ⟨by decide,
   (isolated_junction_becomes_plus (NewRegion (bytesOf "a*\n  ")) (NewRegion_RowsFit _) 0 1
     (by decide) (by decide) (by decide) (by decide) (by decide)).1,
   by decide,
   (isolated_junction_becomes_plus (NewRegion (bytesOf "a+\n  ")) (NewRegion_RowsFit _) 0 1
     (by decide) (by decide) (by decide) (by decide) (by decide)).2 (by decide)⟩

/-- C4: the code against the claim. Entry 1 (Up) of `lineDrawing` is U+2576, the glyph
of entry 8 (Right), where the reference glyph for Up is U+2575; the other fifteen
entries are the reference glyphs. A '+' under a '|' is therefore printed as U+2576. -/
theorem lineDrawing_up_entry :
    lineDrawing.getD 1 0 = 0x2576 ∧ referenceGlyph.getD 1 0 = 0x2575 ∧
    lineDrawing.getD 1 0 = lineDrawing.getD 8 0 ∧
    (∀ m, m < 16 → m ≠ 1 → lineDrawing.getD m 0 = referenceGlyph.getD m 0) ∧
    (convert (NewRegion (bytesOf "|\n+"))).lines = [[0x2502], [0x2576]] ∧
    processFile (bytesOf "|\n+") = bytesOf "│\n╶" := by
  refine ⟨by decide, by decide, by decide, ?_, by decide, by decide⟩
  intro m hm hne
  interval_cases m <;> first | exact absurd rfl hne | decide

/-- C5: the four corner masks, two adjacent directions each, are 5 (Left Up), 6 (Left
Down), 9 (Right Up) and 10 (Right Down); the square and the rounded table differ at a
mask below 16 exactly when the mask is one of these four; and in a region whose rows
fit its width a '+' converts to the square entry of its neighbour mask while a '*' put
in its place converts to the rounded entry of the same mask, so the two results are
equal except at those four masks. -/
theorem style_independence :
    ((FlagLeft ||| FlagUp = 5 ∧ FlagLeft ||| FlagDown = 6) ∧
      (FlagRight ||| FlagUp = 9 ∧ FlagRight ||| FlagDown = 10)) ∧
    (∀ m, m < 16 →
      (lineDrawing.getD m 0 ≠ lineDrawingRound.getD m 0 ↔ (m = 5 ∨ m = 6 ∨ m = 9 ∨ m = 10))) ∧
    (∀ (g : Region) (row col : Int), g.RowsFit → g.Get row col = 43 →
      neighbourIndex (g.Set row col 42) row col = neighbourIndex g row col ∧
      (convert g).Get row col = lineDrawing.getD (neighbourIndex g row col) 0 ∧
      (convert (g.Set row col 42)).Get row col =
        lineDrawingRound.getD (neighbourIndex g row col) 0 ∧
      ((convert g).Get row col ≠ (convert (g.Set row col 42)).Get row col ↔
        (neighbourIndex g row col = 5 ∨ neighbourIndex g row col = 6 ∨
         neighbourIndex g row col = 9 ∨ neighbourIndex g row col = 10))) := by
  have htab : ∀ m, m < 16 →
      (lineDrawing.getD m 0 ≠ lineDrawingRound.getD m 0 ↔ (m = 5 ∨ m = 6 ∨ m = 9 ∨ m = 10)) := by
    intro m hm
    interval_cases m <;> decide
  refine ⟨by decide, htab, ?_⟩
  intro g row col hfit hplus
  have hb : g.InBounds row col := InBounds_of_Get_ne_zero g row col (by rw [hplus]; decide)
  have hfit2 : (g.Set row col 42).RowsFit := (Set_shape g row col 42).rowsFit hfit
  have hidx : neighbourIndex (g.Set row col 42) row col = neighbourIndex g row col := by
    apply neighbourIndex_congr
    intro i j
    rw [Get_Set]
    split_ifs with h
    · rw [h.1, h.2.1, hplus]
      decide
    · rfl
  have h1 : (convert g).Get row col = lineDrawing.getD (neighbourIndex g row col) 0 := by
    rw [Get_convert_of_fit g hfit, cellResult, hplus]
    simp [convChar]
  have h2 : (convert (g.Set row col 42)).Get row col =
      lineDrawingRound.getD (neighbourIndex g row col) 0 := by
    rw [Get_convert_of_fit _ hfit2, cellResult, hidx, Get_Set, if_pos ⟨rfl, rfl, hb⟩]
    simp [convChar]
  refine ⟨hidx, h1, h2, ?_⟩
  rw [h1, h2]
  exact htab _ (neighbourIndex_lt g row col)

theorem style_independence_witness :
    lineDrawing.getD 9 0 ≠ lineDrawingRound.getD 9 0 ∧
    (convert (NewRegion (bytesOf "+-\n|"))).Get 0 0 = 0x250C ∧
    (convert ((NewRegion (bytesOf "+-\n|")).Set 0 0 42)).Get 0 0 = 0x256D :=
  ⟨(style_independence.2.1 9 (by decide)).2 (by decide),
   (style_independence.2.2 (NewRegion (bytesOf "+-\n|")) 0 0 (by decide) (by decide)).2.1,
   (style_independence.2.2 (NewRegion (bytesOf "+-\n|")) 0 0 (by decide) (by decide)).2.2.1⟩

/-- C6: the conversion pass keeps the shape of every region: the same number of rows
and, row by row, the same length (and the same width field). -/
theorem shape_preserved (g : Region) :
    (convert g).Height = g.Height ∧ (convert g).lines.length = g.lines.length ∧
    (∀ i, ((convert g).lines.getD i []).length = (g.lines.getD i []).length) ∧
    (convert g).Width = g.Width := by
  have hs := convert_shape g
  have hh := hs.height
  refine ⟨hh, ?_, fun i => lengths_getD hs.2 i, hs.1⟩
  simpa [Region.Height] using hh

/-- C7: a text of Unicode scalar values holding none of '-', '|', '+', '*', with any
number of lines, empty ones included, comes out of the filter byte for byte as
it went in. -/
theorem non_line_passthrough (text : List Int) (hv : ∀ r ∈ text, ValidRune r)
    (hn : ∀ r ∈ text, r ≠ 45 ∧ r ≠ 124 ∧ r ≠ 43 ∧ r ≠ 42) :
    processFile (utf8 text) = utf8 text := by
  have hl := NewRegion_utf8_lines text hv
  have hc : convert (NewRegion (utf8 text)) = NewRegion (utf8 text) := by
    apply convert_of_no_marker
    rw [hl]
    intro line hline r hr
    obtain ⟨h1, h2, h3, h4⟩ := hn r (mem_splitText text line hline r hr).1
    exact ⟨h2, h1, h3, h4⟩
  rw [processFile, hc]
  exact String_of_lines _ text hl

theorem non_line_passthrough_witness :
    processFile (utf8 [104, 233, 10, 10, 0x4E16, 32, 0x1F600, 10]) =
      utf8 [104, 233, 10, 10, 0x4E16, 32, 0x1F600, 10] :=
  non_line_passthrough [104, 233, 10, 10, 0x4E16, 32, 0x1F600, 10] (by decide) (by decide)

/-- C8: in a region whose rows fit its width, a stored cell holding none of '|', '-',
'+', '*' (a box-drawing glyph included) holds the same rune after the pass, a cell
holding '|' holds U+2502 and a cell holding '-' holds U+2500. -/
theorem other_chars_untouched (g : Region) (hfit : g.RowsFit) (row col : Int)
    (hb : g.InBounds row col) :
    ((g.Get row col ≠ 124 ∧ g.Get row col ≠ 45 ∧ g.Get row col ≠ 43 ∧ g.Get row col ≠ 42) →
      (convert g).Get row col = g.Get row col) ∧
    (g.Get row col = 124 → (convert g).Get row col = 0x2502) ∧
    (g.Get row col = 45 → (convert g).Get row col = 0x2500) := by
  rw [Get_convert, if_pos (hfit.lt_width hb), cellResult]
  refine ⟨?_, ?_, ?_⟩
  · rintro ⟨h1, h2, h3, h4⟩
    simp [convChar, h1, h2, h3, h4]
  · intro h
    rw [h]
    rfl
  · intro h
    rw [h]
    rfl

theorem other_chars_untouched_witness :
    (NewRegion (bytesOf "a|-┼")).Get 0 3 = 0x253C ∧
    (convert (NewRegion (bytesOf "a|-┼"))).Get 0 3 = (NewRegion (bytesOf "a|-┼")).Get 0 3 ∧
    (convert (NewRegion (bytesOf "a|-┼"))).Get 0 1 = 0x2502 ∧
    (convert (NewRegion (bytesOf "a|-┼"))).Get 0 2 = 0x2500 :=
  ⟨by decide,
   (other_chars_untouched (NewRegion (bytesOf "a|-┼")) (by decide) 0 3 (by decide)).1
     (by decide),
   (other_chars_untouched (NewRegion (bytesOf "a|-┼")) (by decide) 0 1 (by decide)).2.1
     (by decide),
   (other_chars_untouched (NewRegion (bytesOf "a|-┼")) (by decide) 0 2 (by decide)).2.2
     (by decide)⟩

/-- C9: replacing by any rune `x` the stored cell (r, c) of a region, where that cell
is not a connector and none of its four axis neighbours holds '+' or '*', changes the
conversion at no cell other than (r, c). -/
theorem locality (g : Region) (r c x : Int) (hb : g.InBounds r c)
    (hnc : isLine (g.Get r c) = false)
    (hu : g.Get (r - 1) c ≠ 43 ∧ g.Get (r - 1) c ≠ 42)
    (hd : g.Get (r + 1) c ≠ 43 ∧ g.Get (r + 1) c ≠ 42)
    (hl : g.Get r (c - 1) ≠ 43 ∧ g.Get r (c - 1) ≠ 42)
    (hr : g.Get r (c + 1) ≠ 43 ∧ g.Get r (c + 1) ≠ 42)
    (i j : Int) (hne : ¬ (i = r ∧ j = c)) :
    (convert (g.Set r c x)).Get i j = (convert g).Get i j := by
  have hG : ∀ a b, ¬ (a = r ∧ b = c) → (g.Set r c x).Get a b = g.Get a b := by
    intro a b h
    rw [Get_Set, if_neg (by tauto)]
  rw [Get_convert, Get_convert, Set_maxWidth, hG i j hne]
  by_cases hj : j < g.maxWidth
  swap
  · rw [if_neg hj, if_neg hj]
  rw [if_pos hj, if_pos hj, cellResult, cellResult, hG i j hne]
  by_cases hjun : g.Get i j = 43 ∨ g.Get i j = 42
  · have n1 : ¬ (i - 1 = r ∧ j = c) := by
      rintro ⟨h1, h2⟩
      have : i = r + 1 := by omega
      subst this h2
      tauto
    have n2 : ¬ (i + 1 = r ∧ j = c) := by
      rintro ⟨h1, h2⟩
      have : i = r - 1 := by omega
      subst this h2
      tauto
    have n3 : ¬ (i = r ∧ j - 1 = c) := by
      rintro ⟨h1, h2⟩
      have : j = c + 1 := by omega
      subst this h1
      tauto
    have n4 : ¬ (i = r ∧ j + 1 = c) := by
      rintro ⟨h1, h2⟩
      have : j = c - 1 := by omega
      subst this h1
      tauto
    have hidx : neighbourIndex (g.Set r c x) i j = neighbourIndex g i j := by
      unfold neighbourIndex
      rw [hG _ _ n1, hG _ _ n2, hG _ _ n3, hG _ _ n4]
    rw [hidx]
  · have h43 : g.Get i j ≠ 43 := fun h => hjun (Or.inl h)
    have h42 : g.Get i j ≠ 42 := fun h => hjun (Or.inr h)
    simp [convChar, h43, h42]

theorem locality_witness :
    (convert ((NewRegion (bytesOf "+-+\n| |\n+-+")).Set 1 1 43)).Get 0 1 =
      (convert (NewRegion (bytesOf "+-+\n| |\n+-+"))).Get 0 1 :=
  locality (NewRegion (bytesOf "+-+\n| |\n+-+")) 1 1 43 (by decide) (by decide)
    (by decide) (by decide) (by decide) (by decide) 0 1 (by decide)

/-- C10: in a region whose rows fit its width, a cell holding '+' whose four axis
neighbours are all connectors holds U+253C after the pass, and so does a cell
holding '*' in the same situation. -/
theorem cross_junction (g : Region) (hfit : g.RowsFit) (row col : Int)
    (hch : g.Get row col = 43 ∨ g.Get row col = 42)
    (hu : isLine (g.Get (row - 1) col) = true) (hd : isLine (g.Get (row + 1) col) = true)
    (hl : isLine (g.Get row (col - 1)) = true) (hr : isLine (g.Get row (col + 1)) = true) :
    (convert g).Get row col = 0x253C := by
  rw [Get_convert_of_fit g hfit, cellResult, neighbourIndex_eq_fifteen g row col hu hd hl hr]
  rcases hch with h | h <;> rw [h] <;> decide

theorem cross_junction_witness :
    (convert (NewRegion (bytesOf " | \n-+-\n | "))).Get 1 1 = 0x253C :=
  cross_junction (NewRegion (bytesOf " | \n-+-\n | ")) (by decide) 1 1 (by decide)
    (by decide) (by decide) (by decide) (by decide)

/-- C11: entry 0 of both glyph tables is '+'; a probe outside the stored cells (out of
the grid or past the end of a short row) reads 0, which is no connector; and in a
region whose rows fit its width a cell holding '+' none of whose four axis neighbours
is a connector still holds '+' after the pass. -/
theorem isolated_plus_kept (g : Region) (hfit : g.RowsFit) (row col : Int)
    (hch : g.Get row col = 43)
    (hu : isLine (g.Get (row - 1) col) = false) (hd : isLine (g.Get (row + 1) col) = false)
    (hl : isLine (g.Get row (col - 1)) = false) (hr : isLine (g.Get row (col + 1)) = false) :
    (lineDrawing.getD 0 0 = 43 ∧ lineDrawingRound.getD 0 0 = 43) ∧
    (∀ i j, ¬ g.InBounds i j → isLine (g.Get i j) = false) ∧
    (convert g).Get row col = 43 := by
  refine ⟨by decide, ?_, ?_⟩
  · intro i j hb
    rw [Get_of_not_InBounds g i j hb]
    rfl
  · rw [Get_convert_of_fit g hfit, cellResult, neighbourIndex_eq_zero g row col hu hd hl hr, hch]
    rfl

theorem isolated_plus_kept_witness :
    (NewRegion (bytesOf "ab\n+\ncd")).Get 1 0 = 43 ∧
    (NewRegion (bytesOf "ab\n+\ncd")).Width = 2 ∧
    ¬ (NewRegion (bytesOf "ab\n+\ncd")).InBounds 1 1 ∧
    (convert (NewRegion (bytesOf "ab\n+\ncd"))).Get 1 0 = 43 :=
  ⟨by decide, by decide, by decide,
   (isolated_plus_kept (NewRegion (bytesOf "ab\n+\ncd")) (NewRegion_RowsFit _) 1 0
     (by decide) (by decide) (by decide) (by decide) (by decide)).2.2⟩

/-- C12: `isLine` holds of a rune exactly when the rune is '|', '-', '+', '*' or lies
in U+2500..U+257F; it fails on 0, and so on every read outside the stored cells. -/
theorem isLine_iff (r : Int) :
    (isLine r = true ↔
      (r = 124 ∨ r = 45 ∨ r = 43 ∨ r = 42 ∨ (0x2500 ≤ r ∧ r ≤ 0x257F))) ∧
    isLine 0 = false ∧
    (∀ (g : Region) (i j : Int), ¬ g.InBounds i j → isLine (g.Get i j) = false) := by
  refine ⟨?_, by decide, ?_⟩
  · unfold isLine
    split_ifs with h
    · simp only [true_iff]
      tauto
    · simp only [decide_eq_true_eq]
      tauto
  · intro g i j hb
    rw [Get_of_not_InBounds g i j hb]
    rfl

/-- C13: `Get` returns the rune stored at (row, col) when the row exists and is longer
than `col`, and 0 for every other pair of integers, negative ones included, whatever
the width of the region. -/
theorem Get_bounds_safe (r : Region) (row col : Int) :
    (r.InBounds row col ↔
      (0 ≤ row ∧ row < r.Height ∧ 0 ≤ col ∧ col < ((r.lines.getD row.toNat []).length : Int))) ∧
    (r.InBounds row col →
      ∃ stored, r.lines[row.toNat]? = some stored ∧ stored[col.toNat]? = some (r.Get row col)) ∧
    (¬ r.InBounds row col → r.Get row col = 0) := by
  refine ⟨Iff.rfl, ?_, Get_of_not_InBounds r row col⟩
  rintro ⟨h0, h1, h2, h3⟩
  have hn : row.toNat < r.lines.length := by omega
  rw [List.getD_eq_getElem _ _ hn] at h3
  have hm : col.toNat < (r.lines[row.toNat]).length := by omega
  have e := Get_eq_getElem r row.toNat col.toNat hn hm
  rw [Int.toNat_of_nonneg h0, Int.toNat_of_nonneg h2] at e
  refine ⟨r.lines[row.toNat], List.getElem?_eq_getElem hn, ?_⟩
  rw [e]
  exact List.getElem?_eq_getElem hm

theorem Get_bounds_safe_witness :
    (NewRegion (bytesOf "abc\nd")).Width = 3 ∧
    (NewRegion (bytesOf "abc\nd")).Get 1 0 = 100 ∧
    (NewRegion (bytesOf "abc\nd")).Get 1 2 = 0 ∧
    (NewRegion (bytesOf "abc\nd")).Get (-1) 0 = 0 ∧
    (NewRegion (bytesOf "abc\nd")).Get 0 (-1) = 0 ∧
    (NewRegion (bytesOf "abc\nd")).Get 2 0 = 0 :=
  ⟨by decide, by decide,
   (Get_bounds_safe (NewRegion (bytesOf "abc\nd")) 1 2).2.2 (by decide),
   (Get_bounds_safe (NewRegion (bytesOf "abc\nd")) (-1) 0).2.2 (by decide),
   (Get_bounds_safe (NewRegion (bytesOf "abc\nd")) 0 (-1)).2.2 (by decide),
   (Get_bounds_safe (NewRegion (bytesOf "abc\nd")) 2 0).2.2 (by decide)⟩

/-- C14: after `Set(row, col, ch)` a stored cell (row, col) reads back `ch`, every
other cell reads back what it held, width, height and every row length are as before,
and when (row, col) is not stored the region is unchanged altogether. -/
theorem Set_frame (r : Region) (row col ch : Int) :
    (r.InBounds row col → (r.Set row col ch).Get row col = ch) ∧
    (∀ i j, ¬ (i = row ∧ j = col) → (r.Set row col ch).Get i j = r.Get i j) ∧
    (r.Set row col ch).Width = r.Width ∧
    (r.Set row col ch).Height = r.Height ∧
    (∀ n, ((r.Set row col ch).lines.getD n []).length = (r.lines.getD n []).length) ∧
    (¬ r.InBounds row col → r.Set row col ch = r) := by
  refine ⟨?_, ?_, Set_maxWidth r row col ch, (Set_shape r row col ch).height,
    fun n => lengths_getD (Set_lengths r row col ch) n, Set_of_not_InBounds r row col ch⟩
  · intro hb
    rw [Get_Set, if_pos ⟨rfl, rfl, hb⟩]
  · intro i j hne
    rw [Get_Set, if_neg (fun h => hne ⟨h.1, h.2.1⟩)]

theorem Set_frame_witness :
    ((NewRegion (bytesOf "abc\nd")).Set 0 1 120).Get 0 1 = 120 ∧
    ((NewRegion (bytesOf "abc\nd")).Set 0 1 120).lines = [[97, 120, 99], [100]] ∧
    (NewRegion (bytesOf "abc\nd")).Set 1 1 120 = NewRegion (bytesOf "abc\nd") :=
  ⟨(Set_frame (NewRegion (bytesOf "abc\nd")) 0 1 120).1 (by decide), by decide,
   (Set_frame (NewRegion (bytesOf "abc\nd")) 1 1 120).2.2.2.2.2 (by decide)⟩

/-- C15: for every text of Unicode scalar values, given as its UTF-8 bytes, serializing
the region built from it gives back exactly these bytes, nothing padded and no line
break added; the region has one more row than the text has line feeds, and the empty
text gives one empty row. -/
theorem construct_serialize_roundtrip (text : List Int) (hv : ∀ r ∈ text, ValidRune r) :
    (NewRegion (utf8 text)).String = utf8 text ∧
    (NewRegion (utf8 text)).lines = splitText text ∧
    (NewRegion (utf8 text)).Height = (text.count 10 : Int) + 1 ∧
    (NewRegion (utf8 [])).lines = [[]] := by
  have hl := NewRegion_utf8_lines text hv
  refine ⟨String_of_lines _ text hl, hl, ?_, by decide⟩
  rw [Region.Height, hl, splitText_length]
  push_cast
  rfl

theorem construct_serialize_roundtrip_witness :
    (NewRegion (utf8 [0x250C, 10, 10, 233, 0x1F600, 10])).String =
      utf8 [0x250C, 10, 10, 233, 0x1F600, 10] ∧
    (NewRegion (utf8 [0x250C, 10, 10, 233, 0x1F600, 10])).lines =
      [[0x250C], [], [233, 0x1F600], []] :=
  ⟨(construct_serialize_roundtrip [0x250C, 10, 10, 233, 0x1F600, 10]
      (by decide)).1, by decide⟩

/-- C16: for every input the region built by `NewRegion` has as width the greatest
length of its rows (0 when every row is empty) and as height the number of its rows,
one more than the input has line feeds; the same holds after the pass; hence every
stored cell lies left of the width and is among the cells the pass visits. -/
theorem width_invariant (input : List Nat) :
    ((NewRegion input).Width = maxRowLen (NewRegion input).lines ∧
      ((∀ row ∈ (NewRegion input).lines, row = []) → (NewRegion input).Width = 0)) ∧
    ((NewRegion input).Height = ((NewRegion input).lines.length : Int) ∧
      (NewRegion input).lines.length = input.count 10 + 1) ∧
    ((convert (NewRegion input)).Width = maxRowLen (convert (NewRegion input)).lines ∧
      (convert (NewRegion input)).Height = ((convert (NewRegion input)).lines.length : Int)) ∧
    (∀ row col, (NewRegion input).InBounds row col →
      col < (NewRegion input).Width ∧ (row, col) ∈ visits (NewRegion input)) := by
  have hw := NewRegion_maxWidth input
  have hs := convert_shape (NewRegion input)
  refine ⟨⟨hw, ?_⟩, ⟨rfl, ?_⟩, ⟨?_, rfl⟩, ?_⟩
  · intro h
    rw [Region.Width, hw]
    exact maxRowLen_eq_zero _ h
  · rw [NewRegion_lines, List.length_map, splitLines_length]
  · rw [Region.Width, hs.1, hw]
    exact (maxRowLen_congr hs.2).symm
  · intro row col hb
    have hlt := (NewRegion_RowsFit input).lt_width hb
    refine ⟨hlt, (mem_visits _ row col).2 ?_⟩
    obtain ⟨h0, h1, h2, _⟩ := hb
    exact ⟨⟨h0, h1⟩, ⟨h2, hlt⟩⟩

/-- C17: in a region whose rows fit its width, the in-place row-major pass gives the
grid of the specification's cell-by-cell conversion, every cell computed from the
unmodified input; the loop body run over the cells in any order that reaches every
stored cell gives that same grid, and so does the column-major order. -/
theorem order_independence (g : Region) (hfit : g.RowsFit) :
    convert g = specConvert g ∧
    (∀ order : List (Int × Int), (∀ i j, g.InBounds i j → (i, j) ∈ order) →
      runOrder g order = convert g) ∧
    runOrder g (columnMajor g) = convert g := by
  have h1 : convert g = specConvert g := by
    apply Region.eq_of_Get ((convert_shape g).trans ⟨(specConvert_shape g).1.symm,
      (specConvert_shape g).2.symm⟩)
    intro i j
    rw [Get_convert_of_fit g hfit, Get_specConvert]
  have h2 : ∀ order : List (Int × Int), (∀ i j, g.InBounds i j → (i, j) ∈ order) →
      runOrder g order = convert g := by
    intro order hcover
    apply Region.eq_of_Get ((runOrder_shape g order).trans ⟨(convert_shape g).1.symm,
      (convert_shape g).2.symm⟩)
    intro i j
    rw [Get_convert_of_fit g hfit]
    by_cases hb : g.InBounds i j
    · exact (Get_runOrder g order i j).1 (hcover i j hb)
    · rw [cellResult_of_not_InBounds g i j hb]
      have hb2 : ¬ (runOrder g order).InBounds i j := by
        intro h
        apply hb
        obtain ⟨h0, h1, h2, h3⟩ := h
        have hl := (runOrder_shape g order).height
        have hr := lengths_getD (runOrder_shape g order).2 i.toNat
        unfold Region.Height at hl
        exact ⟨h0, by omega, h2, by omega⟩
      exact Get_of_not_InBounds _ i j hb2
  refine ⟨h1, h2, h2 _ ?_⟩
  intro i j hb
  have hlt := hfit.lt_width hb
  obtain ⟨h0, h1, h2, _⟩ := hb
  exact (mem_columnMajor g i j).2 ⟨⟨h0, h1⟩, ⟨h2, hlt⟩⟩

theorem order_independence_witness :
    columnMajor (NewRegion (bytesOf "+-\n|")) = [(0, 0), (1, 0), (0, 1), (1, 1)] ∧
    visits (NewRegion (bytesOf "+-\n|")) = [(0, 0), (0, 1), (1, 0), (1, 1)] ∧
    runOrder (NewRegion (bytesOf "+-\n|")) (columnMajor (NewRegion (bytesOf "+-\n|"))) =
      convert (NewRegion (bytesOf "+-\n|")) ∧
    (convert (NewRegion (bytesOf "+-\n|"))).lines = [[0x250C, 0x2500], [0x2502]] :=
  ⟨by decide, by decide,
   (order_independence (NewRegion (bytesOf "+-\n|")) (NewRegion_RowsFit _)).2.2, by decide⟩

/-- C18: the pass never fails. Both tables have 16 entries and the neighbour index
computed on any region at any cell is below 16; a probe outside the stored cells, at
a grid edge or past the end of a short row, reads 0, which is no connector; and the
loops end by their own tests: whatever the fuel, from `Width` on the inner loop runs
the body on the columns 0 to `Width - 1` of its row, each once and in order, and from
`Height` on the two loops run it on the cells of the rectangle `Height` by `Width`,
each once and row by row, after which nothing more is run and the result is that of
the pass. -/
theorem pass_never_fails (g : Region) (row col : Int) :
    (lineDrawing.length = 16 ∧ lineDrawingRound.length = 16) ∧
    neighbourIndex g row col < 16 ∧
    (∀ i j, ¬ g.InBounds i j → g.Get i j = 0 ∧ isLine (g.Get i j) = false) ∧
    (∀ fuel : Nat, g.Width ≤ fuel →
      colLoop row fuel 0 g = runOrder g (colVisits row fuel 0 g) ∧
      colVisits row fuel 0 g =
        (List.range g.Width.toNat).map (fun (c : Nat) => (row, (c : Int))) ∧
      colLoop row fuel 0 g = colLoop row g.Width.toNat 0 g) ∧
    (∀ fuel : Nat, g.Height ≤ fuel →
      rowLoop fuel 0 g = runOrder g (rowVisits fuel 0 g) ∧
      rowVisits fuel 0 g = rowMajor g.Height.toNat g.Width.toNat ∧
      rowLoop fuel 0 g = convert g) ∧
    (convert g = runOrder g (visits g) ∧
      visits g = rowMajor g.Height.toNat g.Width.toNat ∧
      (visits g).length = g.Height.toNat * g.Width.toNat) := by
  refine ⟨⟨rfl, rfl⟩, neighbourIndex_lt g row col, ?_, ?_, ?_, convert_eq_runOrder g, ?_, ?_⟩
  · intro i j hb
    rw [Get_of_not_InBounds g i j hb]
    exact ⟨rfl, rfl⟩
  · intro fuel hfuel
    refine ⟨colLoop_eq_runOrder row fuel 0 g, ?_, ?_⟩
    · rw [colVisits_eq row fuel 0 g (by omega), Int.sub_zero]
      apply List.map_congr_left
      intro k _
      simp
    · obtain ⟨extra, rfl⟩ := Nat.exists_eq_add_of_le (show g.Width.toNat ≤ fuel by omega)
      exact colLoop_more_fuel row _ extra 0 g (by omega)
  · intro fuel hfuel
    refine ⟨rowLoop_eq_runOrder fuel 0 g, rowVisits_eq_rowMajor fuel g hfuel, ?_⟩
    obtain ⟨extra, rfl⟩ := Nat.exists_eq_add_of_le (show g.Height.toNat ≤ fuel by omega)
    exact rowLoop_more_fuel _ extra 0 g (by omega)
  · exact rowVisits_eq_rowMajor _ g (by omega)
  · unfold visits
    rw [rowVisits_length _ 0 g (by omega), Int.sub_zero]

theorem pass_never_fails_witness :
    (NewRegion (bytesOf "ab\nc")).Height = 2 ∧ (NewRegion (bytesOf "ab\nc")).Width = 2 ∧
    colVisits 0 100 0 (NewRegion (bytesOf "ab\nc")) = [(0, 0), (0, 1)] ∧
    rowVisits 100 0 (NewRegion (bytesOf "ab\nc")) = [(0, 0), (0, 1), (1, 0), (1, 1)] ∧
    rowLoop 100 0 (NewRegion (bytesOf "ab\nc")) = convert (NewRegion (bytesOf "ab\nc")) :=
  ⟨by decide, by decide,
   ((pass_never_fails (NewRegion (bytesOf "ab\nc")) 0 0).2.2.2.1 100 (by decide)).2.1.trans
     (by decide),
   ((pass_never_fails (NewRegion (bytesOf "ab\nc")) 0 0).2.2.2.2.1 100 (by decide)).2.1.trans
     (by decide),
   ((pass_never_fails (NewRegion (bytesOf "ab\nc")) 0 0).2.2.2.2.1 100 (by decide)).2.2⟩

/-- C19: every entry of both glyph tables, U+2502 and U+2500 are connectors; and after
any number of steps of the pass, as after the whole pass, every cell is a connector
exactly when it was one in the input. -/
theorem connector_status_kept (g : Region) (k : Nat) (i j : Int) :
    ((∀ m, m < 16 → isLine (lineDrawing.getD m 0) = true ∧
        isLine (lineDrawingRound.getD m 0) = true) ∧
      isLine 0x2502 = true ∧ isLine 0x2500 = true) ∧
    isLine ((runOrder g ((visits g).take k)).Get i j) = isLine (g.Get i j) ∧
    (runOrder g (visits g) = convert g ∧
      isLine ((convert g).Get i j) = isLine (g.Get i j)) := by
  refine ⟨⟨?_, by decide, by decide⟩, isLine_Get_runOrder g _ i j,
    (convert_eq_runOrder g).symm, isLine_Get_convert g i j⟩
  intro m hm
  interval_cases m <;> decide

/-- C20: in a region whose rows fit its width, after the pass no cell holds '|', '-'
or '*', and a cell holding '+' held '+' or '*' in the input with none of its four
axis neighbours a connector. -/
theorem no_raw_markers (g : Region) (hfit : g.RowsFit) (i j : Int) :
    ((convert g).Get i j ≠ 124 ∧ (convert g).Get i j ≠ 45 ∧ (convert g).Get i j ≠ 42) ∧
    ((convert g).Get i j = 43 →
      (g.Get i j = 43 ∨ g.Get i j = 42) ∧
      (isLine (g.Get (i - 1) j) = false ∧ isLine (g.Get (i + 1) j) = false) ∧
      (isLine (g.Get i (j - 1)) = false ∧ isLine (g.Get i (j + 1)) = false)) := by
  rw [Get_convert_of_fit g hfit, cellResult]
  obtain ⟨h1, h2⟩ := convChar_marker (g.Get i j) _ (neighbourIndex_lt g i j)
  refine ⟨h1, fun h => ?_⟩
  obtain ⟨h3, h4⟩ := h2 h
  exact ⟨h3, neighbourIndex_zero_imp g i j h4⟩

theorem no_raw_markers_witness :
    (convert (NewRegion (bytesOf "+ *-\n  |"))).lines =
      [[43, 32, 0x256D, 0x2500], [32, 32, 0x2502]] ∧
    (convert (NewRegion (bytesOf "+ *-\n  |"))).Get 0 2 ≠ 42 ∧
    ((NewRegion (bytesOf "+ *-\n  |")).Get 0 0 = 43 ∨
      (NewRegion (bytesOf "+ *-\n  |")).Get 0 0 = 42) :=
  ⟨by decide,
   (no_raw_markers (NewRegion (bytesOf "+ *-\n  |")) (NewRegion_RowsFit _) 0 2).1.2.2,
   ((no_raw_markers (NewRegion (bytesOf "+ *-\n  |")) (NewRegion_RowsFit _) 0 0).2
     (by decide)).1⟩

end AsciiArt
